import Mathlib

/-
Verification of the offline synchronization engine of the NoteTakingApp
repository (frontend/src/lib/sync.js, frontend/src/lib/db.js), shallowly
embedded in Lean.  Timestamps are modelled as natural numbers (milliseconds
since the epoch); an invalid date is modelled as `none`.  The remote API and
the wall clock are modelled by an explicit environment, and every awaited
operation of a sync cycle is recorded in an effect trace together with the
value of the `syncInProgress` flag at that suspension point.
-/

/-- The `action` field of a sync-queue entry (`'create' | 'update' | 'delete'`). -/
inductive SyncAction where
  | create
  | update
  | delete
deriving DecidableEq, Repr

/-- Payload stored in a queue entry's `data` field: the note data handed to
`addToSyncQueue` (for deletes it carries the server id in `id`). -/
structure NoteData where
  id : Option String
  title : String
  content : String
  lastModified : Nat
deriving DecidableEq, Repr

/-- A row of the Dexie `syncQueue` table (`++id, noteId, action, data, timestamp, retries`). -/
structure QueueEntry where
  id : Nat
  noteId : Nat
  action : SyncAction
  data : Option NoteData
  timestamp : Nat
  retries : Nat
deriving DecidableEq, Repr

/-- A row of the Dexie `notes` table (`++id, serverId, title, content, lastModified, synced, userId`). -/
structure LocalNote where
  id : Nat
  serverId : Option String
  title : String
  content : String
  lastModified : Option Nat
  synced : Bool
  userId : Option String
deriving DecidableEq, Repr

/-- A record as returned by the server (`note._id || note.id` resolves its identity,
`note.lastModified || note.updatedAt` its timestamp). -/
structure ServerNote where
  _id : Option String
  id : Option String
  title : String
  content : String
  lastModified : Option Nat
  updatedAt : Option Nat
  userId : Option String
deriving DecidableEq, Repr

/-- One element of the `conflicts` array of a `/notes/sync` response. -/
structure Conflict where
  id : Option String
  serverNote : Option ServerNote
deriving DecidableEq, Repr

/-- The body of a `/notes/sync` response: `{ created, updated, conflicts }`. -/
structure SyncResponse where
  created : List ServerNote
  updated : List ServerNote
  conflicts : List Conflict
deriving DecidableEq, Repr

/-- JavaScript `a || b` on two optional strings: `undefined` and the empty
string are falsy. -/
def jsOrStr : Option String → Option String → Option String
  | some s, b => if s = "" then b else some s
  | none, b => b

/-- JavaScript `a || b` on two optional timestamps: `undefined` and `0` are falsy. -/
def jsOrNat : Option Nat → Option Nat → Option Nat
  | some n, b => if n = 0 then b else some n
  | none, b => b

/-- The identity `note._id || note.id` of a server record (`none` when neither
field holds a truthy value). -/
def ServerNote.jsId (n : ServerNote) : Option String := jsOrStr n._id n.id

/-- The timestamp `new Date(note.lastModified || note.updatedAt)` of a server
record; `none` models an invalid date. -/
def ServerNote.jsLastModified (n : ServerNote) : Option Nat :=
  jsOrNat n.lastModified n.updatedAt

/-- Truthiness test `item.data?.id` used when classifying a delete entry:
yields the id only when `data` is present and `data.id` is a truthy string. -/
def dataIdTruthy : Option NoteData → Option String
  | some d => match d.id with
    | some s => if s = "" then none else some s
    | none => none
  | none => none

/-- Raw optional access `q.data?.id` used by `deleteIds.includes(q.data?.id)`. -/
def dataIdRaw : Option NoteData → Option String
  | some d => d.id
  | none => none

/-- Truthiness of `n.serverId` as used by the negation `!n.serverId`
(`undefined`, `null` and the empty string are falsy). -/
def serverIdFalsy : Option String → Bool
  | none => true
  | some s => s = ""

/-- Module-level state of sync.js together with the two Dexie tables it
touches and the `lastSync` watermark held in localStorage.  Both table lists
are kept in primary-key order. -/
structure SyncState where
  isOnline : Bool
  syncInProgress : Bool
  syncRetryDelay : Nat
  notes : List LocalNote
  nextNoteId : Nat
  syncQueue : List QueueEntry
  nextQueueId : Nat
  lastSync : Option Nat
deriving DecidableEq, Repr

/-- Environment of one sync cycle: outcomes of the remote calls and the wall
clock.  `deleteOk` tells whether `api.delete('/notes/' + id)` succeeds,
`postSync` is the `/notes/sync` push, `getAfter` the pull since the watermark. -/
structure Env where
  deleteOk : String → Bool
  postSync : List (Option NoteData) → Except Unit SyncResponse
  getAfter : Option Nat → Except Unit (List ServerNote)
  now : Nat

/-- Events of a sync cycle.  Each carries the value of `syncInProgress` at the
moment the operation was started: `susp` is an awaited local-database
operation, the `net*` events are the remote calls, `timer` is the
`setTimeout` scheduling a retry after the recorded delay. -/
inductive Eff where
  | susp (flag : Bool)
  | netDelete (sid : String) (ok : Bool) (flag : Bool)
  | netPost (batch : List (Option NoteData)) (flag : Bool)
  | netGet (flag : Bool)
  | timer (delay : Nat) (flag : Bool)
deriving DecidableEq, Repr

/-- The `syncInProgress` flag recorded on an event. -/
def Eff.flag : Eff → Bool
  | .susp f => f
  | .netDelete _ _ f => f
  | .netPost _ f => f
  | .netGet f => f
  | .timer _ f => f

def Eff.isNetDelete : Eff → Bool
  | .netDelete _ _ _ => true
  | _ => false

def Eff.isNetPost : Eff → Bool
  | .netPost _ _ => true
  | _ => false

def Eff.isTimer : Eff → Bool
  | .timer _ _ => true
  | _ => false

/-- Stable insertion into a sorted list: `x` is placed before the first `y`
with `f x y`.  With a reflexive total comparator this is the unique stable
sort order, which is what both Dexie's index order and JavaScript's
`Array.prototype.sort` guarantee. -/
def insertStable (f : QueueEntry → QueueEntry → Bool) (x : QueueEntry) :
    List QueueEntry → List QueueEntry
  | [] => [x]
  | y :: ys => if f x y then x :: y :: ys else y :: insertStable f x ys

/-- Stable sort by the comparator `f` (insertion sort, which is stable and
agrees with every other stable sort of the same total preorder). -/
def sortStable (f : QueueEntry → QueueEntry → Bool) : List QueueEntry → List QueueEntry
  | [] => []
  | x :: xs => insertStable f x (sortStable f xs)

/-- `db.syncQueue.orderBy('timestamp').toArray()`: rows sorted by the
`timestamp` index, ties in primary-key order (the list is kept in primary-key
order, so a stable sort reproduces Dexie's index order). -/
def orderByTimestamp (q : List QueueEntry) : List QueueEntry :=
  sortStable (fun a b => a.timestamp ≤ b.timestamp) q

/-- The expression
`queue.filter(q => q.noteId === nid && q.action !== 'delete').sort((a, b) => b.timestamp - a.timestamp)[0]`:
latest non-delete entry of a note.  JavaScript's sort is stable and the
comparator `b.timestamp - a.timestamp` orders by descending timestamp, so
among equal timestamps the entry earliest in `queue` stays first. -/
def latestFor (queue : List QueueEntry) (nid : Nat) : Option QueueEntry :=
  (sortStable (fun a b => b.timestamp ≤ a.timestamp)
    (queue.filter fun q => q.noteId = nid ∧ q.action ≠ SyncAction.delete)).head?

/-- Accumulator of the queue-processing loop: `deleteIds`, the insertion-order
contents of the `processedIds` set, and `notesToSync`. -/
structure ProcResult where
  deleteIds : List String
  processedIds : List Nat
  notesToSync : List (Option NoteData)
deriving DecidableEq, Repr

/-- The `for (const item of queue)` classification loop of `triggerSync`:
delete entries with a truthy `data.id` are collected into `deleteIds`; any
other entry marks its `noteId` processed (once) and pushes the data of the
latest non-delete entry for that note. -/
def processGo (full : List QueueEntry) : List QueueEntry → ProcResult → ProcResult
  | [], acc => acc
  | item :: rest, acc =>
    match item.action, dataIdTruthy item.data with
    | SyncAction.delete, some did =>
        processGo full rest { acc with deleteIds := acc.deleteIds ++ [did] }
    | _, _ =>
        if item.noteId ∈ acc.processedIds then
          processGo full rest acc
        else
          match latestFor full item.noteId with
          | some latest =>
              processGo full rest
                { acc with processedIds := acc.processedIds ++ [item.noteId],
                           notesToSync := acc.notesToSync ++ [latest.data] }
          | none => processGo full rest acc

/-- Queue classification of one cycle, run on the timestamp-ordered queue. -/
def processQueue (queue : List QueueEntry) : ProcResult :=
  processGo queue queue ⟨[], [], []⟩

/-- `db.notes.where('serverId').equals(sid).first()`: Dexie yields rows in
index order, which among rows of equal `serverId` is primary-key order. -/
def findByServerId (notes : List LocalNote) (sid : String) : Option LocalNote :=
  notes.find? fun n => n.serverId = some sid

/-- `db.notes.where('title').equals(t).and(n => !n.serverId).first()`. -/
def findByTitleUnsynced (notes : List LocalNote) (t : String) : Option LocalNote :=
  notes.find? fun n => n.title = t ∧ serverIdFalsy n.serverId

/-- The `db.notes.update` performed for a pulled record or a conflict's
server version (sets `title`, `content`, `lastModified`, `synced`). -/
def pulledUpdate (n : ServerNote) (lid : Nat) (x : LocalNote) : LocalNote :=
  if x.id = lid then
    { x with title := n.title, content := n.content,
             lastModified := n.jsLastModified, synced := true }
  else x

/-- The `db.notes.add` row built from a server record (new local id from the
auto-increment counter). -/
def newNoteFrom (s : SyncState) (sid : String) (n : ServerNote) : LocalNote :=
  { id := s.nextNoteId, serverId := some sid, title := n.title, content := n.content,
    lastModified := n.jsLastModified, synced := true, userId := n.userId }

/-- The per-row effect of the `db.notes.update` performed for a record of
`created`/`updated` in `triggerSync` (sets `serverId`, `title`, `content`,
`synced`, `lastModified` on the matched row). -/
def pushedUpdate (sid : String) (n : ServerNote) (lid : Nat) (x : LocalNote) : LocalNote :=
  if x.id = lid then
    { x with serverId := some sid, title := n.title, content := n.content,
             synced := true, lastModified := n.jsLastModified }
  else x

/-- The `db.notes.update` performed for a record of `created`/`updated` in
`triggerSync`. -/
def updateNotePushed (notes : List LocalNote) (lid : Nat) (sid : String)
    (n : ServerNote) : List LocalNote :=
  notes.map (pushedUpdate sid n lid)

/-- Reconciliation of one record of `created`/`updated` inside `triggerSync`
(lines 120–156): match by `serverId`, fall back to an exact-title match among
records with a falsy `serverId`, else insert.  A record whose identity
resolves to `undefined` makes `where(...).equals(undefined)` throw, modelled
as an error. -/
def reconcilePushed (s : SyncState) (n : ServerNote) : Except Unit SyncState :=
  match n.jsId with
  | none => .error ()
  | some sid =>
    match findByServerId s.notes sid with
    | some ln => .ok { s with notes := updateNotePushed s.notes ln.id sid n }
    | none =>
      match findByTitleUnsynced s.notes n.title with
      | some ln => .ok { s with notes := updateNotePushed s.notes ln.id sid n }
      | none =>
          .ok { s with notes := s.notes ++ [newNoteFrom s sid n],
                       nextNoteId := s.nextNoteId + 1 }

/-- The `for (const note of [...created, ...updated])` loop.  Each reconciled
record is one suspension event; a throw aborts the loop, keeping the records
already written (the error is handled by the catch block of `triggerSync`). -/
def applyCU : SyncState → List ServerNote → SyncState × List Eff × Bool
  | s, [] => (s, [], true)
  | s, n :: ns =>
    match reconcilePushed s n with
    | .ok s' =>
        let rest := applyCU s' ns
        (rest.1, Eff.susp s.syncInProgress :: rest.2.1, rest.2.2)
    | .error _ => (s, [Eff.susp s.syncInProgress], false)

/-- Handling of one element of `conflicts` (lines 162–178): when a
`serverNote` is present, the local record matching `conflict.id` is
overwritten with the server version and marked synced. -/
def applyConflict (s : SyncState) (c : Conflict) : Except Unit SyncState :=
  match c.serverNote with
  | none => .ok s
  | some sn =>
    match c.id with
    | none => .error ()
    | some cid =>
      match findByServerId s.notes cid with
      | none => .ok s
      | some ln =>
          .ok { s with notes := s.notes.map (pulledUpdate sn ln.id) }

/-- The `for (const conflict of conflicts)` loop. -/
def conflictLoop : SyncState → List Conflict → SyncState × List Eff × Bool
  | s, [] => (s, [], true)
  | s, c :: cs =>
    match applyConflict s c with
    | .ok s' =>
        let rest := conflictLoop s' cs
        (rest.1, Eff.susp s.syncInProgress :: rest.2.1, rest.2.2)
    | .error _ => (s, [Eff.susp s.syncInProgress], false)

/-- Reconciliation of one pulled record in `syncFromServer` (lines 230–255):
match by `serverId` and update in place, else insert a new local record. -/
def reconcilePulled (s : SyncState) (n : ServerNote) : Except Unit SyncState :=
  match n.jsId with
  | none => .error ()
  | some sid =>
    match findByServerId s.notes sid with
    | some ln =>
        .ok { s with notes := s.notes.map (pulledUpdate n ln.id) }
    | none =>
        .ok { s with notes := s.notes ++ [newNoteFrom s sid n],
                     nextNoteId := s.nextNoteId + 1 }

/-- The `for (const note of serverNotes)` loop of `syncFromServer`. -/
def pullLoop : SyncState → List ServerNote → SyncState × List Eff × Bool
  | s, [] => (s, [], true)
  | s, n :: ns =>
    match reconcilePulled s n with
    | .ok s' =>
        let rest := pullLoop s' ns
        (rest.1, Eff.susp s.syncInProgress :: rest.2.1, rest.2.2)
    | .error _ => (s, [Eff.susp s.syncInProgress], false)

/-- `syncFromServer` (lines 220–263): pull the records changed since the
`lastSync` watermark, reconcile them, and advance the watermark to now.  Every
error — of the pull request or of the reconcile loop — is swallowed by its
catch block, in which case the watermark is not advanced. -/
def syncFromServer (s : SyncState) (env : Env) : SyncState × List Eff :=
  match env.getAfter s.lastSync with
  | .error _ => (s, [Eff.netGet s.syncInProgress])
  | .ok serverNotes =>
      let res := pullLoop s serverNotes
      if res.2.2 then
        ({ res.1 with lastSync := some env.now },
         Eff.netGet s.syncInProgress :: res.2.1 ++ [Eff.susp res.1.syncInProgress])
      else (res.1, Eff.netGet s.syncInProgress :: res.2.1)

/-- `retries: item.retries + 1` applied to every live queue entry, as done by
the catch block of `triggerSync`. -/
def bumpRetries (q : List QueueEntry) : List QueueEntry :=
  q.map fun e => { e with retries := e.retries + 1 }

/-- The catch block of `triggerSync` (lines 193–213): double the retry delay
(capped at 60000 ms), increment `retries` on every queue entry, schedule a
retry via `setTimeout` after the new delay, and resolve with `false`; the
finally block clears `syncInProgress`. -/
def catchPath (s : SyncState) : SyncState × Bool × List Eff :=
  let delay := min (s.syncRetryDelay * 2) 60000
  ({ s with syncRetryDelay := delay,
            syncQueue := bumpRetries s.syncQueue,
            syncInProgress := false },
   false,
   [Eff.susp s.syncInProgress, Eff.timer delay s.syncInProgress])

/-- The `deleteIds.includes(q.data?.id)` test of line 184. -/
def inDeleteIds (dels : List String) (q : QueueEntry) : Bool :=
  match dataIdRaw q.data with
  | some i => decide (i ∈ dels)
  | none => false

/-- Line 184's predicate selecting the queue rows to remove after a cycle. -/
def isProcessed (r : ProcResult) (q : QueueEntry) : Bool :=
  decide (q.noteId ∈ r.processedIds) ||
    (decide (q.action = SyncAction.delete) && inDeleteIds r.deleteIds q)

/-- Tail of a successful cycle (lines 182–192): remove the processed rows of
the queue snapshot with `bulkDelete`, pull from the server, reset the retry
delay to 1000 ms and resolve with `true`; the finally block clears
`syncInProgress`. -/
def finishSuccess (s : SyncState) (env : Env) (queue : List QueueEntry)
    (r : ProcResult) : SyncState × Bool × List Eff :=
  let ids := (queue.filter (isProcessed r)).map QueueEntry.id
  let s4 := { s with syncQueue := s.syncQueue.filter fun e => decide (e.id ∈ ids) = false }
  let fs := syncFromServer s4 env
  ({ fs.1 with syncRetryDelay := 1000, syncInProgress := false },
   true,
   Eff.susp s.syncInProgress :: fs.2)

/-- Lines 115–180: if the batch is nonempty, push it to `/notes/sync` and fold
the response into the local store; a push failure or a throw inside the
reconcile loops lands in the catch block. -/
def pushPhase (s : SyncState) (env : Env) (queue : List QueueEntry)
    (r : ProcResult) : SyncState × Bool × List Eff :=
  match r.notesToSync with
  | [] => finishSuccess s env queue r
  | d :: ds =>
    let postEff := Eff.netPost (d :: ds) s.syncInProgress
    match env.postSync (d :: ds) with
    | .error _ =>
        let c := catchPath s
        (c.1, c.2.1, postEff :: c.2.2)
    | .ok resp =>
        let cu := applyCU s (resp.created ++ resp.updated)
        match cu.2.2 with
        | true =>
          let cf := conflictLoop cu.1 resp.conflicts
          match cf.2.2 with
          | true =>
              let fin := finishSuccess cf.1 env queue r
              (fin.1, fin.2.1, postEff :: cu.2.1 ++ cf.2.1 ++ fin.2.2)
          | false =>
              let c := catchPath cf.1
              (c.1, c.2.1, postEff :: cu.2.1 ++ cf.2.1 ++ c.2.2)
        | false =>
          let c := catchPath cu.1
          (c.1, c.2.1, postEff :: cu.2.1 ++ c.2.2)

/-- The `for (const id of deleteIds)` loop (lines 107–113): each
`api.delete('/notes/' + id)` is awaited and its failure is swallowed by the
per-iteration catch block. -/
def deleteLoop (s : SyncState) (env : Env) : List String → List Eff
  | [] => []
  | did :: rest => Eff.netDelete did (env.deleteOk did) s.syncInProgress :: deleteLoop s env rest

/-- `triggerSync` (lines 59–217).  Returns the final state, the resolved
boolean, and the trace of the cycle's awaited operations. -/
def triggerSync (s : SyncState) (env : Env) : SyncState × Bool × List Eff :=
  if !s.isOnline || s.syncInProgress then (s, false, [])
  else
    let s1 : SyncState := { s with syncInProgress := true }
    let queue := orderByTimestamp s1.syncQueue
    let readEff := Eff.susp s1.syncInProgress
    if queue.isEmpty then
      let fs := syncFromServer s1 env
      ({ fs.1 with syncInProgress := false }, true, readEff :: fs.2)
    else
      let r := processQueue queue
      let delEffs := deleteLoop s1 env r.deleteIds
      let res := pushPhase s1 env queue r
      (res.1, res.2.1, readEff :: delEffs ++ res.2.2)

/-- `addToSyncQueue` (lines 29–44).  `addOk` tells whether the Dexie `add`
call persists the row; a failure is caught and logged, never rethrown.
Returns the new state, whether an error was surfaced to the caller, and
whether a sync was triggered (the fire-and-forget `triggerSync()` call). -/
def addToSyncQueue (s : SyncState) (noteId : Nat) (action : SyncAction)
    (data : Option NoteData) (now : Nat) (addOk : Bool) :
    SyncState × Bool × Bool :=
  if addOk then
    ({ s with
         syncQueue := s.syncQueue ++ [{ id := s.nextQueueId, noteId := noteId,
                                        action := action, data := data,
                                        timestamp := now, retries := 0 }],
         nextQueueId := s.nextQueueId + 1 },
     false, s.isOnline)
  else
    (s, false, false)

/-- The server's `notes` collection together with a counter generating fresh
Mongo `_id`s for records created by `new Note(...).save()`. -/
structure ServerState where
  store : List ServerNote
  nextId : Nat
deriving Repr

/-- `Note.findById(id)`: lookup of a server record by its `_id`. -/
def serverFind (store : List ServerNote) (sid : String) : Option ServerNote :=
  store.find? fun n => n._id = some sid

/-- The request context of the `POST /notes/sync` handler: the authenticated
user's id (`req.user.id`), a per-iteration oracle for the database operations
of the loop body (`Note.findById` / `save()`, whose rejection is caught by
the per-note `catch` and reported as a conflict), and the server's wall clock
(`new Date()`), used when a pushed record carries a falsy `lastModified`. -/
structure ServerEnv where
  uid : String
  noteOk : Nat → Bool
  snow : Nat

/-- A record written by `new Note({title, content, userId, lastModified,
synced}).save()` in the sync handler's create branches: the saved document
carries a fresh server-generated `_id` (never the client-supplied id), the
authenticated user's id, and `lastModified` defaulted to the server clock
when the pushed value is falsy.  `models/Note.js` is absent from the
sources, so the schema's own defaults are not modelled; every field the
clients read is set explicitly by the handler. -/
def serverFresh (senv : ServerEnv) (st : ServerState) (d : NoteData) : ServerNote × ServerState :=
  let fresh : ServerNote :=
    { _id := some ("srv" ++ toString st.nextId), id := none, title := d.title,
      content := d.content,
      lastModified := some (if d.lastModified = 0 then senv.snow else d.lastModified),
      updatedAt := none, userId := some senv.uid }
  (fresh, { store := st.store ++ [fresh], nextId := st.nextId + 1 })

/-- The `POST /notes/sync` handler, `backend/routes/auth.routes.js` lines
287-368 (the file's second document is the notes router that
`backend/server.js` mounts at `/api/notes`).  For each pushed record:
a truthy `id` that `Note.findById` resolves is first checked against the
authenticated user (`existingNote.userId.toString() !== req.user.id` reports
an `Unauthorized` conflict without `serverNote`); then last-write-wins
compares `syncDate >= existingNote.lastModified`, where `syncDate` is the
pushed `lastModified` or, when falsy, the server clock: not strictly earlier
writes the client's version (reported in `updated`), otherwise the untouched
stored record is reported in `conflicts` with `serverNote`.  A truthy `id`
that resolves to nothing, or a falsy `id`, creates a fresh record (reported
in `created`).  A rejected database operation inside the loop body is caught
per-note and reported as a conflict carrying only the pushed id.  An
`undefined` element of `notes` makes `syncNote.id` throw in the `catch`
block too, so the whole request fails with a 500 (`.error ()` here; the
conflicts' textual `reason` field, which no client reads, and the `synced`
flag of the stored documents are not modelled; `syncNote.content || ''` is
the identity on the model's total strings). -/
def serverSync (senv : ServerEnv) (st : ServerState) (i : Nat) :
    List (Option NoteData) → Except Unit (ServerState × SyncResponse)
  | [] => .ok (st, ⟨[], [], []⟩)
  | none :: _ => .error ()
  | some d :: rest =>
    if senv.noteOk i then
      match d.id with
      | some sid =>
        if sid = "" then
          -- `if (syncNote.id)` is false on the empty string: create branch.
          let c := serverFresh senv st d
          match serverSync senv c.2 (i + 1) rest with
          | .error e => .error e
          | .ok res => .ok (res.1, { res.2 with created := c.1 :: res.2.created })
        else
          match serverFind st.store sid with
          | some srv =>
            if srv.userId = some senv.uid then
              let syncDate := if d.lastModified = 0 then senv.snow else d.lastModified
              match srv.lastModified with
              | some t =>
                if t ≤ syncDate then
                  let upd : ServerNote :=
                    { srv with title := d.title, content := d.content,
                               lastModified := some syncDate }
                  let st' : ServerState :=
                    { st with store := st.store.map fun n => if n._id = some sid then upd else n }
                  match serverSync senv st' (i + 1) rest with
                  | .error e => .error e
                  | .ok res => .ok (res.1, { res.2 with updated := upd :: res.2.updated })
                else
                  match serverSync senv st (i + 1) rest with
                  | .error e => .error e
                  | .ok res => .ok (res.1, { res.2 with conflicts := ⟨some sid, some srv⟩ :: res.2.conflicts })
              | none =>
                -- `syncDate >= undefined` is false in JS: conflict branch.
                match serverSync senv st (i + 1) rest with
                | .error e => .error e
                | .ok res => .ok (res.1, { res.2 with conflicts := ⟨some sid, some srv⟩ :: res.2.conflicts })
            else
              -- `Unauthorized` (a missing stored `userId` also lands here,
              -- via the thrown `toString` and the per-note catch).
              match serverSync senv st (i + 1) rest with
              | .error e => .error e
              | .ok res => .ok (res.1, { res.2 with conflicts := ⟨some sid, none⟩ :: res.2.conflicts })
          | none =>
            -- Note was deleted on server: create a new one under a fresh id.
            let c := serverFresh senv st d
            match serverSync senv c.2 (i + 1) rest with
            | .error e => .error e
            | .ok res => .ok (res.1, { res.2 with created := c.1 :: res.2.created })
      | none =>
        let c := serverFresh senv st d
        match serverSync senv c.2 (i + 1) rest with
        | .error e => .error e
        | .ok res => .ok (res.1, { res.2 with created := c.1 :: res.2.created })
    else
      -- The iteration's database operation rejected: per-note catch.
      match serverSync senv st (i + 1) rest with
      | .error e => .error e
      | .ok res => .ok (res.1, { res.2 with conflicts := ⟨d.id, none⟩ :: res.2.conflicts })

/-
Concrete fixtures used by witnesses and counterexamples.
-/

/-- Environment in which every remote call succeeds and returns nothing. -/
def envAllOk : Env where
  deleteOk := fun _ => true
  postSync := fun _ => .ok ⟨[], [], []⟩
  getAfter := fun _ => .ok []
  now := 99

/-- Environment in which every remote call fails. -/
def envAllFail : Env where
  deleteOk := fun _ => false
  postSync := fun _ => .error ()
  getAfter := fun _ => .error ()
  now := 99

/-- Environment in which the delete call fails but push and pull succeed. -/
def envDelFail : Env where
  deleteOk := fun _ => false
  postSync := fun _ => .ok ⟨[], [], []⟩
  getAfter := fun _ => .ok []
  now := 99

/-- A queued delete entry for the note with local id 7 and server id "S". -/
def entryDel : QueueEntry where
  id := 1
  noteId := 7
  action := .delete
  data := some { id := some "S", title := "t", content := "c", lastModified := 40 }
  timestamp := 10
  retries := 0

/-- A queued update entry for the same note, enqueued later. -/
def entryUpd : QueueEntry where
  id := 2
  noteId := 7
  action := .update
  data := some { id := some "S", title := "t2", content := "c2", lastModified := 50 }
  timestamp := 20
  retries := 0

/-- A base state: online, no cycle in flight, current backoff 4000 ms. -/
def baseState (queue : List QueueEntry) : SyncState where
  isOnline := true
  syncInProgress := false
  syncRetryDelay := 4000
  notes := []
  nextNoteId := 1
  syncQueue := queue
  nextQueueId := 3
  lastSync := none

/-- Payload of a local mutation with `lastModified = a + 1` targeting server
identity "S" (the `+ 1` keeps the timestamp visibly non-zero). -/
def c4Note (a : Nat) : NoteData :=
  { id := some "S", title := "ct", content := "cc", lastModified := a + 1 }

/-- The server's stored record for identity "S", `lastModified = b + 1`,
owned by the authenticated user "U". -/
def c4Server (b : Nat) : ServerNote :=
  { _id := some "S", id := none, title := "st", content := "sc",
    lastModified := some (b + 1), updatedAt := none, userId := some "U" }

/-- Request context of the modelled handler: user "U", no database failures,
server clock at 77. -/
def c4SEnv : ServerEnv :=
  { uid := "U", noteOk := fun _ => true, snow := 77 }

/-- The stored record after the handler writes the client's version. -/
def c4Upd (a b : Nat) : ServerNote :=
  { c4Server b with title := "ct", content := "cc", lastModified := some (a + 1) }

/-- The local row for identity "S" awaiting reconciliation. -/
def c4Local : LocalNote :=
  { id := 5, serverId := some "S", title := "lt", content := "lc",
    lastModified := some 1, synced := false, userId := none }

/-- The queued update carrying `c4Note a`. -/
def c4Entry (a : Nat) : QueueEntry :=
  { id := 1, noteId := 5, action := .update, data := some (c4Note a),
    timestamp := 3, retries := 0 }

/-- Online, idle state holding `c4Local` and the single queued update. -/
def c4State (a : Nat) : SyncState :=
  { isOnline := true, syncInProgress := false, syncRetryDelay := 1000,
    notes := [c4Local], nextNoteId := 6, syncQueue := [c4Entry a],
    nextQueueId := 2, lastSync := none }

/-- Environment whose push endpoint is the embedded `POST /notes/sync`
handler under context `c4SEnv`, seeded with `c4Server b`; deletes succeed
and the pull returns nothing. -/
def c4Env (b : Nat) : Env :=
  { deleteOk := fun _ => true,
    postSync := fun batch => (serverSync c4SEnv ⟨[c4Server b], 0⟩ 0 batch).map (fun r => r.2),
    getAfter := fun _ => .ok [], now := 9 }

/-
Helper lemmas: shapes of the states and traces produced by the cycle's
phases.  Every reconcile step only touches the `notes` table (and the
auto-increment counter); the coordinator fields are untouched until the
catch/success tails run.
-/

theorem insertStable_perm (f : QueueEntry → QueueEntry → Bool) (x : QueueEntry)
    (l : List QueueEntry) : (insertStable f x l).Perm (x :: l) := by
  induction l with
  | nil => exact List.Perm.refl _
  | cons y ys ih =>
      unfold insertStable
      split
      · exact List.Perm.refl _
      · exact (List.Perm.cons y ih).trans (List.Perm.swap x y ys)

theorem sortStable_perm (f : QueueEntry → QueueEntry → Bool) (l : List QueueEntry) :
    (sortStable f l).Perm l := by
  induction l with
  | nil => exact List.Perm.refl _
  | cons x xs ih =>
      exact (insertStable_perm f x (sortStable f xs)).trans (List.Perm.cons x ih)

theorem reconcilePushed_ok_state {s : SyncState} {n : ServerNote} {s' : SyncState}
    (h : reconcilePushed s n = .ok s') :
    ∃ nts k, s' = { s with notes := nts, nextNoteId := k } := by
  unfold reconcilePushed at h
  split at h
  · exact absurd h (by simp)
  · split at h
    · exact ⟨_, s.nextNoteId, by simpa using h.symm⟩
    · split at h
      · exact ⟨_, s.nextNoteId, by simpa using h.symm⟩
      · exact ⟨_, s.nextNoteId + 1, by simpa using h.symm⟩

theorem reconcilePulled_ok_state {s : SyncState} {n : ServerNote} {s' : SyncState}
    (h : reconcilePulled s n = .ok s') :
    ∃ nts k, s' = { s with notes := nts, nextNoteId := k } := by
  unfold reconcilePulled at h
  split at h
  · exact absurd h (by simp)
  · split at h
    · exact ⟨_, s.nextNoteId, by simpa using h.symm⟩
    · exact ⟨_, s.nextNoteId + 1, by simpa using h.symm⟩

theorem applyConflict_ok_state {s : SyncState} {c : Conflict} {s' : SyncState}
    (h : applyConflict s c = .ok s') :
    ∃ nts, s' = { s with notes := nts } := by
  unfold applyConflict at h
  split at h
  · exact ⟨s.notes, by simpa using h.symm⟩
  · split at h
    · exact absurd h (by simp)
    · split at h
      · exact ⟨s.notes, by simpa using h.symm⟩
      · exact ⟨_, by simpa using h.symm⟩

theorem applyCU_state (s : SyncState) (ns : List ServerNote) :
    ∃ nts k, (applyCU s ns).1 = { s with notes := nts, nextNoteId := k } := by
  induction ns generalizing s with
  | nil => exact ⟨s.notes, s.nextNoteId, rfl⟩
  | cons n ns ih =>
    show ∃ nts k, (match reconcilePushed s n with
      | .ok s' => _
      | .error _ => _ : SyncState × List Eff × Bool).1 = _
    cases hr : reconcilePushed s n with
    | ok s' =>
        obtain ⟨nts1, k1, h1⟩ := reconcilePushed_ok_state hr
        obtain ⟨nts2, k2, h2⟩ := ih s'
        subst h1
        exact ⟨nts2, k2, by simpa using h2⟩
    | error e =>
        exact ⟨s.notes, s.nextNoteId, by simp [applyCU, hr]⟩

theorem conflictLoop_state (s : SyncState) (cs : List Conflict) :
    ∃ nts, (conflictLoop s cs).1 = { s with notes := nts } := by
  induction cs generalizing s with
  | nil => exact ⟨s.notes, rfl⟩
  | cons c cs ih =>
    cases hr : applyConflict s c with
    | ok s' =>
        obtain ⟨nts1, h1⟩ := applyConflict_ok_state hr
        obtain ⟨nts2, h2⟩ := ih s'
        subst h1
        exact ⟨nts2, by simpa [conflictLoop, hr] using h2⟩
    | error e =>
        exact ⟨s.notes, by simp [conflictLoop, hr]⟩

theorem pullLoop_state (s : SyncState) (ns : List ServerNote) :
    ∃ nts k, (pullLoop s ns).1 = { s with notes := nts, nextNoteId := k } := by
  induction ns generalizing s with
  | nil => exact ⟨s.notes, s.nextNoteId, rfl⟩
  | cons n ns ih =>
    cases hr : reconcilePulled s n with
    | ok s' =>
        obtain ⟨nts1, k1, h1⟩ := reconcilePulled_ok_state hr
        obtain ⟨nts2, k2, h2⟩ := ih s'
        subst h1
        exact ⟨nts2, k2, by simpa [pullLoop, hr] using h2⟩
    | error e =>
        exact ⟨s.notes, s.nextNoteId, by simp [pullLoop, hr]⟩

theorem syncFromServer_state (s : SyncState) (env : Env) :
    ∃ nts k w, (syncFromServer s env).1 = { s with notes := nts, nextNoteId := k, lastSync := w } := by
  unfold syncFromServer
  cases hg : env.getAfter s.lastSync with
  | error e => exact ⟨s.notes, s.nextNoteId, s.lastSync, rfl⟩
  | ok serverNotes =>
      obtain ⟨nts, k, h⟩ := pullLoop_state s serverNotes
      by_cases hok : (pullLoop s serverNotes).2.2 = true
      · exact ⟨nts, k, some env.now, by simp [hok, h]⟩
      · exact ⟨nts, k, s.lastSync, by simp [Bool.not_eq_true] at hok; simp [hok, h]⟩

theorem deleteLoop_effs (s : SyncState) (env : Env) (ids : List String) :
    ∀ e ∈ deleteLoop s env ids, ∃ i, e = Eff.netDelete i (env.deleteOk i) s.syncInProgress := by
  induction ids with
  | nil => intro e he; simp [deleteLoop] at he
  | cons i ids ih =>
      intro e he
      simp only [deleteLoop, List.mem_cons] at he
      rcases he with h | h
      · exact ⟨i, h⟩
      · exact ih e h

theorem applyCU_effs (s : SyncState) (ns : List ServerNote) :
    ∀ e ∈ (applyCU s ns).2.1, e = Eff.susp s.syncInProgress := by
  induction ns generalizing s with
  | nil => intro e he; simp [applyCU] at he
  | cons n ns ih =>
      intro e he
      cases hr : reconcilePushed s n with
      | ok s' =>
          obtain ⟨nts, k, h1⟩ := reconcilePushed_ok_state hr
          simp only [applyCU, hr, List.mem_cons] at he
          rcases he with h | h
          · exact h
          · have := ih s' e h
            rw [this, h1]
      | error e' =>
          simp only [applyCU, hr, List.mem_cons, List.not_mem_nil, or_false] at he
          exact he

theorem conflictLoop_effs (s : SyncState) (cs : List Conflict) :
    ∀ e ∈ (conflictLoop s cs).2.1, e = Eff.susp s.syncInProgress := by
  induction cs generalizing s with
  | nil => intro e he; simp [conflictLoop] at he
  | cons c cs ih =>
      intro e he
      cases hr : applyConflict s c with
      | ok s' =>
          obtain ⟨nts, h1⟩ := applyConflict_ok_state hr
          simp only [conflictLoop, hr, List.mem_cons] at he
          rcases he with h | h
          · exact h
          · have := ih s' e h
            rw [this, h1]
      | error e' =>
          simp only [conflictLoop, hr, List.mem_cons, List.not_mem_nil, or_false] at he
          exact he

theorem pullLoop_effs (s : SyncState) (ns : List ServerNote) :
    ∀ e ∈ (pullLoop s ns).2.1, e = Eff.susp s.syncInProgress := by
  induction ns generalizing s with
  | nil => intro e he; simp [pullLoop] at he
  | cons n ns ih =>
      intro e he
      cases hr : reconcilePulled s n with
      | ok s' =>
          obtain ⟨nts, k, h1⟩ := reconcilePulled_ok_state hr
          simp only [pullLoop, hr, List.mem_cons] at he
          rcases he with h | h
          · exact h
          · have := ih s' e h
            rw [this, h1]
      | error e' =>
          simp only [pullLoop, hr, List.mem_cons, List.not_mem_nil, or_false] at he
          exact he

theorem syncFromServer_effs (s : SyncState) (env : Env) :
    ∀ e ∈ (syncFromServer s env).2,
      e = Eff.susp s.syncInProgress ∨ e = Eff.netGet s.syncInProgress := by
  intro e he
  unfold syncFromServer at he
  cases hg : env.getAfter s.lastSync with
  | error e' => simp [hg] at he; simp [he]
  | ok serverNotes =>
      obtain ⟨nts, k, hst⟩ := pullLoop_state s serverNotes
      by_cases hok : (pullLoop s serverNotes).2.2 = true
      · simp only [hg, hok, if_true, List.mem_cons, List.mem_append,
                   List.mem_singleton, List.not_mem_nil, or_false] at he
        rcases he with (h | h) | h
        · exact .inr h
        · exact .inl (pullLoop_effs s serverNotes e h)
        · rw [hst] at h
          exact .inl h
      · rw [Bool.not_eq_true] at hok
        simp only [hg, hok, Bool.false_eq_true, if_false, List.mem_cons] at he
        rcases he with h | h
        · exact .inr (by rw [h])
        · exact .inl (pullLoop_effs s serverNotes e h)

theorem catchPath_proj (s : SyncState) :
    (catchPath s).1.syncRetryDelay = min (s.syncRetryDelay * 2) 60000 ∧
    (catchPath s).1.syncQueue = bumpRetries s.syncQueue ∧
    (catchPath s).1.syncInProgress = false ∧
    (catchPath s).2.1 = false ∧
    (catchPath s).2.2 = [Eff.susp s.syncInProgress,
                         Eff.timer (min (s.syncRetryDelay * 2) 60000) s.syncInProgress] := by
  refine ⟨rfl, rfl, rfl, rfl, rfl⟩

theorem finishSuccess_proj (s : SyncState) (env : Env) (q : List QueueEntry) (r : ProcResult) :
    (finishSuccess s env q r).1.syncQueue =
      s.syncQueue.filter (fun e => decide (e.id ∈ (q.filter (isProcessed r)).map QueueEntry.id) = false) ∧
    (finishSuccess s env q r).1.syncRetryDelay = 1000 ∧
    (finishSuccess s env q r).1.syncInProgress = false ∧
    (finishSuccess s env q r).2.1 = true := by
  unfold finishSuccess
  obtain ⟨nts, k, w, h⟩ := syncFromServer_state
    { s with syncQueue := s.syncQueue.filter fun e =>
        decide (e.id ∈ (q.filter (isProcessed r)).map QueueEntry.id) = false } env
  refine ⟨?_, rfl, rfl, rfl⟩
  simp only [h]

theorem finishSuccess_effs (s : SyncState) (env : Env) (q : List QueueEntry) (r : ProcResult) :
    ∀ e ∈ (finishSuccess s env q r).2.2,
      e = Eff.susp s.syncInProgress ∨ e = Eff.netGet s.syncInProgress := by
  intro e he
  unfold finishSuccess at he
  simp only [List.mem_cons] at he
  rcases he with h | h
  · exact .inl h
  · have := syncFromServer_effs
      { s with syncQueue := s.syncQueue.filter fun e =>
          decide (e.id ∈ (q.filter (isProcessed r)).map QueueEntry.id) = false } env e h
    simpa using this

theorem pushPhase_inProgress (s : SyncState) (env : Env) (q : List QueueEntry) (r : ProcResult) :
    (pushPhase s env q r).1.syncInProgress = false := by
  unfold pushPhase
  split
  · exact (finishSuccess_proj s env q r).2.2.1
  · split
    · exact (catchPath_proj s).2.2.1
    · dsimp only
      split
      · split
        · exact (finishSuccess_proj _ env q r).2.2.1
        · exact (catchPath_proj _).2.2.1
      · exact (catchPath_proj _).2.2.1

theorem pushPhase_error_false (s : SyncState) (env : Env) (q : List QueueEntry) (r : ProcResult)
    (hne : r.notesToSync ≠ []) (herr : env.postSync r.notesToSync = .error ()) :
    (pushPhase s env q r).2.1 = false := by
  unfold pushPhase
  split
  · rename_i xns heqns
    exact absurd heqns hne
  · rename_i xns d ds heqns
    rw [heqns] at herr
    split
    · rfl
    · rename_i resp heqp
      rw [herr] at heqp
      cases heqp

theorem pushPhase_cases (s : SyncState) (env : Env) (q : List QueueEntry) (r : ProcResult) :
    ((pushPhase s env q r).2.1 = true ∧
      (pushPhase s env q r).1.syncQueue =
        s.syncQueue.filter (fun e => decide (e.id ∈ (q.filter (isProcessed r)).map QueueEntry.id) = false) ∧
      (pushPhase s env q r).1.syncRetryDelay = 1000 ∧
      (∀ e ∈ (pushPhase s env q r).2.2, e.isTimer = false)) ∨
    ((pushPhase s env q r).2.1 = false ∧
      (pushPhase s env q r).1.syncRetryDelay = min (s.syncRetryDelay * 2) 60000 ∧
      (pushPhase s env q r).1.syncQueue = bumpRetries s.syncQueue ∧
      ∃ pre, (pushPhase s env q r).2.2 =
        pre ++ [Eff.susp s.syncInProgress,
                Eff.timer (min (s.syncRetryDelay * 2) 60000) s.syncInProgress]) := by
  unfold pushPhase
  split
  · refine .inl ⟨(finishSuccess_proj s env q r).2.2.2,
      (finishSuccess_proj s env q r).1, (finishSuccess_proj s env q r).2.1, ?_⟩
    intro e he
    rcases finishSuccess_effs s env q r e he with h' | h' <;> rw [h'] <;> rfl
  · rename_i xns d ds heqns
    split
    · exact .inr ⟨rfl, rfl, rfl,
        ⟨[Eff.netPost (d :: ds) s.syncInProgress], rfl⟩⟩
    · rename_i resp heqp
      dsimp only
      split
      · split
        · obtain ⟨nts1, k1, h1⟩ := applyCU_state s (resp.created ++ resp.updated)
          obtain ⟨nts2, h2⟩ := conflictLoop_state (applyCU s (resp.created ++ resp.updated)).1 resp.conflicts
          have hsq : (conflictLoop (applyCU s (resp.created ++ resp.updated)).1 resp.conflicts).1.syncQueue
              = s.syncQueue := by rw [h2, h1]
          dsimp only
          refine .inl ⟨(finishSuccess_proj
              (conflictLoop (applyCU s (resp.created ++ resp.updated)).1 resp.conflicts).1 env q r).2.2.2,
            ?_, (finishSuccess_proj
              (conflictLoop (applyCU s (resp.created ++ resp.updated)).1 resp.conflicts).1 env q r).2.1, ?_⟩
          · rw [(finishSuccess_proj
              (conflictLoop (applyCU s (resp.created ++ resp.updated)).1 resp.conflicts).1 env q r).1, hsq]
          · intro e he
            simp only [List.mem_cons, List.mem_append] at he
            rcases he with ((h' | h') | h') | h'
            · rw [h']; rfl
            · rw [applyCU_effs s (resp.created ++ resp.updated) e h']; rfl
            · rw [conflictLoop_effs (applyCU s (resp.created ++ resp.updated)).1 resp.conflicts e h']; rfl
            · have h'' := finishSuccess_effs
                (conflictLoop (applyCU s (resp.created ++ resp.updated)).1 resp.conflicts).1
                env q r e (by exact h')
              rcases h'' with h'' | h'' <;> rw [h''] <;> rfl
        · obtain ⟨nts1, k1, h1⟩ := applyCU_state s (resp.created ++ resp.updated)
          obtain ⟨nts2, h2⟩ := conflictLoop_state (applyCU s (resp.created ++ resp.updated)).1 resp.conflicts
          dsimp only
          refine .inr ⟨rfl, by rw [h2, h1]; rfl, by rw [h2, h1]; rfl, ?_⟩
          refine ⟨Eff.netPost (d :: ds) s.syncInProgress ::
            ((applyCU s (resp.created ++ resp.updated)).2.1 ++
             (conflictLoop (applyCU s (resp.created ++ resp.updated)).1 resp.conflicts).2.1), ?_⟩
          rw [h2, h1]
          simp [catchPath]
      · obtain ⟨nts1, k1, h1⟩ := applyCU_state s (resp.created ++ resp.updated)
        dsimp only
        refine .inr ⟨rfl, by rw [h1]; rfl, by rw [h1]; rfl, ?_⟩
        refine ⟨Eff.netPost (d :: ds) s.syncInProgress ::
          (applyCU s (resp.created ++ resp.updated)).2.1, ?_⟩
        simp [catchPath, h1]

theorem pushPhase_trace (s : SyncState) (env : Env) (q : List QueueEntry) (r : ProcResult) :
    (∀ e ∈ (pushPhase s env q r).2.2, Eff.flag e = s.syncInProgress ∧ e.isNetDelete = false) ∧
    ((r.notesToSync = [] ∧ ∀ e ∈ (pushPhase s env q r).2.2, e.isNetPost = false) ∨
     (∃ rest, (pushPhase s env q r).2.2 = Eff.netPost r.notesToSync s.syncInProgress :: rest ∧
        ∀ e ∈ rest, e.isNetPost = false)) := by
  unfold pushPhase
  split
  · rename_i xns heqns
    constructor
    · intro e he
      rcases finishSuccess_effs s env q r e he with h' | h' <;> rw [h'] <;> exact ⟨rfl, rfl⟩
    · refine .inl ⟨heqns, ?_⟩
      intro e he
      rcases finishSuccess_effs s env q r e he with h' | h' <;> rw [h'] <;> rfl
  · rename_i xns d ds heqns
    split
    · have hrest : ∀ e ∈ (catchPath s).2.2,
          Eff.flag e = s.syncInProgress ∧ e.isNetDelete = false ∧ e.isNetPost = false := by
        intro e he
        simp only [catchPath, List.mem_cons, List.mem_singleton, List.not_mem_nil, or_false] at he
        rcases he with h' | h' <;> rw [h'] <;> exact ⟨rfl, rfl, rfl⟩
      constructor
      · intro e he
        simp only [List.mem_cons] at he
        rcases he with h' | h'
        · rw [h']; exact ⟨rfl, rfl⟩
        · exact ⟨(hrest e h').1, (hrest e h').2.1⟩
      · refine .inr ⟨(catchPath s).2.2, by rw [heqns], ?_⟩
        intro e he
        exact (hrest e he).2.2
    · rename_i resp heqp
      dsimp only
      split
      · split
        · obtain ⟨nts1, k1, h1⟩ := applyCU_state s (resp.created ++ resp.updated)
          obtain ⟨nts2, h2⟩ := conflictLoop_state (applyCU s (resp.created ++ resp.updated)).1 resp.conflicts
          have hflag : (conflictLoop (applyCU s (resp.created ++ resp.updated)).1 resp.conflicts).1.syncInProgress
              = s.syncInProgress := by rw [h2, h1]
          have hrest : ∀ e ∈ (applyCU s (resp.created ++ resp.updated)).2.1 ++
              (conflictLoop (applyCU s (resp.created ++ resp.updated)).1 resp.conflicts).2.1 ++
              (finishSuccess (conflictLoop (applyCU s (resp.created ++ resp.updated)).1 resp.conflicts).1 env q r).2.2,
              Eff.flag e = s.syncInProgress ∧ e.isNetDelete = false ∧ e.isNetPost = false := by
            intro e he
            rcases List.mem_append.mp he with hlf | h'
            rotate_left
            · have h'' := finishSuccess_effs
                (conflictLoop (applyCU s (resp.created ++ resp.updated)).1 resp.conflicts).1
                env q r e (by exact h')
              rcases h'' with h'' | h'' <;> rw [h'', hflag] <;> exact ⟨rfl, rfl, rfl⟩
            rcases List.mem_append.mp hlf with h' | h'
            · rw [applyCU_effs s (resp.created ++ resp.updated) e h']
              exact ⟨rfl, rfl, rfl⟩
            · have := conflictLoop_effs (applyCU s (resp.created ++ resp.updated)).1 resp.conflicts e h'
              rw [this, h1]
              exact ⟨rfl, rfl, rfl⟩
          constructor
          · intro e he
            rcases List.mem_cons.mp he with h' | h'
            · rw [h']; exact ⟨rfl, rfl⟩
            · exact ⟨(hrest e (by exact h')).1, (hrest e (by exact h')).2.1⟩
          · refine .inr ⟨_, by rw [heqns]; rfl, ?_⟩
            intro e he
            exact (hrest e he).2.2
        · obtain ⟨nts1, k1, h1⟩ := applyCU_state s (resp.created ++ resp.updated)
          obtain ⟨nts2, h2⟩ := conflictLoop_state (applyCU s (resp.created ++ resp.updated)).1 resp.conflicts
          have hflag : (conflictLoop (applyCU s (resp.created ++ resp.updated)).1 resp.conflicts).1.syncInProgress
              = s.syncInProgress := by rw [h2, h1]
          have hcp : ∀ e ∈ (catchPath (conflictLoop (applyCU s (resp.created ++ resp.updated)).1 resp.conflicts).1).2.2,
              Eff.flag e = s.syncInProgress ∧ e.isNetDelete = false ∧ e.isNetPost = false := by
            intro e he
            simp only [catchPath, List.mem_cons, List.mem_singleton, List.not_mem_nil, or_false] at he
            rcases he with h' | h' <;> rw [h', hflag] <;> exact ⟨rfl, rfl, rfl⟩
          have hrest : ∀ e ∈ (applyCU s (resp.created ++ resp.updated)).2.1 ++
              (conflictLoop (applyCU s (resp.created ++ resp.updated)).1 resp.conflicts).2.1 ++
              (catchPath (conflictLoop (applyCU s (resp.created ++ resp.updated)).1 resp.conflicts).1).2.2,
              Eff.flag e = s.syncInProgress ∧ e.isNetDelete = false ∧ e.isNetPost = false := by
            intro e he
            rcases List.mem_append.mp he with hlf | h'
            rotate_left
            · exact hcp e h'
            rcases List.mem_append.mp hlf with h' | h'
            · rw [applyCU_effs s (resp.created ++ resp.updated) e h']
              exact ⟨rfl, rfl, rfl⟩
            · have := conflictLoop_effs (applyCU s (resp.created ++ resp.updated)).1 resp.conflicts e h'
              rw [this, h1]
              exact ⟨rfl, rfl, rfl⟩
          constructor
          · intro e he
            rcases List.mem_cons.mp he with h' | h'
            · rw [h']; exact ⟨rfl, rfl⟩
            · exact ⟨(hrest e (by exact h')).1, (hrest e (by exact h')).2.1⟩
          · refine .inr ⟨_, by rw [heqns]; rfl, ?_⟩
            intro e he
            exact (hrest e he).2.2
      · obtain ⟨nts1, k1, h1⟩ := applyCU_state s (resp.created ++ resp.updated)
        have hflag : (applyCU s (resp.created ++ resp.updated)).1.syncInProgress = s.syncInProgress := by
          rw [h1]
        have hrest : ∀ e ∈ (applyCU s (resp.created ++ resp.updated)).2.1 ++
            (catchPath (applyCU s (resp.created ++ resp.updated)).1).2.2,
            Eff.flag e = s.syncInProgress ∧ e.isNetDelete = false ∧ e.isNetPost = false := by
          intro e he
          rcases List.mem_append.mp he with h' | h'
          · rw [applyCU_effs s (resp.created ++ resp.updated) e h']
            exact ⟨rfl, rfl, rfl⟩
          · simp only [catchPath, List.mem_cons, List.mem_singleton, List.not_mem_nil, or_false] at h'
            rcases h' with h' | h' <;> rw [h', hflag] <;> exact ⟨rfl, rfl, rfl⟩
        constructor
        · intro e he
          rcases List.mem_cons.mp he with h' | h'
          · rw [h']; exact ⟨rfl, rfl⟩
          · exact ⟨(hrest e (by exact h')).1, (hrest e (by exact h')).2.1⟩
        · refine .inr ⟨_, by rw [heqns]; rfl, ?_⟩
          intro e he
          exact (hrest e he).2.2

theorem triggerSync_guard (s : SyncState) (env : Env)
    (h : (!s.isOnline || s.syncInProgress) = true) :
    triggerSync s env = (s, false, []) := by
  unfold triggerSync
  rw [if_pos h]

theorem triggerSync_open (s : SyncState) (env : Env)
    (hon : s.isOnline = true) (hip : s.syncInProgress = false) :
    triggerSync s env =
      (if (orderByTimestamp s.syncQueue).isEmpty then
        (({ (syncFromServer { s with syncInProgress := true } env).1 with syncInProgress := false },
          true,
          Eff.susp true :: (syncFromServer { s with syncInProgress := true } env).2))
      else
        ((pushPhase { s with syncInProgress := true } env (orderByTimestamp s.syncQueue)
            (processQueue (orderByTimestamp s.syncQueue))).1,
         (pushPhase { s with syncInProgress := true } env (orderByTimestamp s.syncQueue)
            (processQueue (orderByTimestamp s.syncQueue))).2.1,
         Eff.susp true ::
           deleteLoop { s with syncInProgress := true } env
             (processQueue (orderByTimestamp s.syncQueue)).deleteIds ++
           (pushPhase { s with syncInProgress := true } env (orderByTimestamp s.syncQueue)
              (processQueue (orderByTimestamp s.syncQueue))).2.2)) := by
  cases s with
  | mk onb ipb rd nts k q nq w =>
      dsimp only at hon hip
      subst hon
      subst hip
      rfl

theorem orderByTimestamp_perm (q : List QueueEntry) : (orderByTimestamp q).Perm q :=
  sortStable_perm _ q

theorem orderByTimestamp_nil_iff (q : List QueueEntry) :
    (orderByTimestamp q).isEmpty = true ↔ q = [] := by
  constructor
  · intro h
    have h' : orderByTimestamp q = [] := by
      cases hq : orderByTimestamp q with
      | nil => rfl
      | cons a l => rw [hq] at h; simp [List.isEmpty] at h
    have := orderByTimestamp_perm q
    rw [h'] at this
    exact this.nil_eq.symm
  · intro h
    subst h
    rfl

theorem triggerSync_shape (s : SyncState) (env : Env)
    (hon : s.isOnline = true) (hip : s.syncInProgress = false) :
    ((triggerSync s env).2.1 = true ∧
      (triggerSync s env).1.syncQueue = s.syncQueue.filter (fun e =>
        decide (e.id ∈ ((orderByTimestamp s.syncQueue).filter
          (isProcessed (processQueue (orderByTimestamp s.syncQueue)))).map QueueEntry.id) = false) ∧
      (triggerSync s env).1.syncRetryDelay = (if s.syncQueue.isEmpty then s.syncRetryDelay else 1000) ∧
      (∀ e ∈ (triggerSync s env).2.2, e.isTimer = false))
    ∨
    ((triggerSync s env).2.1 = false ∧
      (triggerSync s env).1.syncRetryDelay = min (s.syncRetryDelay * 2) 60000 ∧
      (triggerSync s env).1.syncQueue = bumpRetries s.syncQueue ∧
      ∃ pre, (triggerSync s env).2.2 =
        pre ++ [Eff.susp true, Eff.timer (min (s.syncRetryDelay * 2) 60000) true]) := by
  rw [triggerSync_open s env hon hip]
  cases hq : (orderByTimestamp s.syncQueue).isEmpty with
  | true =>
      have hsq : s.syncQueue = [] := (orderByTimestamp_nil_iff s.syncQueue).mp hq
      rw [if_pos rfl]
      obtain ⟨nts, k, w, hst⟩ := syncFromServer_state { s with syncInProgress := true } env
      refine .inl ⟨rfl, ?_, ?_, ?_⟩
      · rw [hst]
        simp [hsq]
      · rw [hst]
        simp [hsq]
      · intro e he
        simp only [List.mem_cons] at he
        rcases he with h' | h'
        · rw [h']; rfl
        · rcases syncFromServer_effs { s with syncInProgress := true } env e h' with h'' | h'' <;>
            rw [h''] <;> rfl
  | false =>
      have hsq : s.syncQueue ≠ [] := by
        intro h
        rw [(orderByTimestamp_nil_iff s.syncQueue).mpr h] at hq
        simp at hq
      rw [if_neg Bool.false_ne_true]
      rcases pushPhase_cases { s with syncInProgress := true } env
        (orderByTimestamp s.syncQueue) (processQueue (orderByTimestamp s.syncQueue)) with
        ⟨hres, hque, hdel, htmr⟩ | ⟨hres, hdel, hque, pre, htr⟩
      · refine .inl ⟨hres, by exact hque, ?_, ?_⟩
        · have hie : s.syncQueue.isEmpty = false := by
            cases hsq' : s.syncQueue with
            | nil => exact absurd hsq' hsq
            | cons a l => rfl
          rw [hie]
          simpa using hdel
        · intro e he
          simp only [List.mem_cons, List.mem_append] at he
          rcases he with (h' | h') | h'
          · rw [h']; rfl
          · obtain ⟨i, hi⟩ := deleteLoop_effs { s with syncInProgress := true } env
              (processQueue (orderByTimestamp s.syncQueue)).deleteIds e h'
            rw [hi]; rfl
          · exact htmr e h'
      · refine .inr ⟨hres, by exact hdel, by exact hque, ?_⟩
        refine ⟨Eff.susp true ::
          deleteLoop { s with syncInProgress := true } env
            (processQueue (orderByTimestamp s.syncQueue)).deleteIds ++ pre, ?_⟩
        rw [htr]
        simp [List.append_assoc]

theorem pushPhase_nil (s : SyncState) (env : Env) (q : List QueueEntry) (r : ProcResult)
    (h : r.notesToSync = []) : pushPhase s env q r = finishSuccess s env q r := by
  unfold pushPhase
  split
  · rfl
  · rename_i xns d ds heqns
    rw [h] at heqns
    cases heqns

/-- C10: when the device is offline or a sync cycle is already in flight,
`triggerSync` resolves `false` immediately: the state — notes store, sync
queue, watermark, backoff delay and flags — is returned unchanged and no
database, network or timer operation is performed (empty effect trace). -/
theorem c10_guard_noop (s : SyncState) (env : Env)
    (h : s.isOnline = false ∨ s.syncInProgress = true) :
    triggerSync s env = (s, false, []) := by
  apply triggerSync_guard
  rcases h with h | h <;> simp [h]

theorem c10_guard_noop_witness :
    triggerSync { baseState [entryUpd] with isOnline := false } envAllOk
      = ({ baseState [entryUpd] with isOnline := false }, false, []) :=
  c10_guard_noop { baseState [entryUpd] with isOnline := false } envAllOk (.inl rfl)

/-- C1: at most one sync cycle runs at a time.  A `triggerSync` call that
finds `syncInProgress` set is a complete no-op resolving `false`; when a
cycle does start, the flag is raised before its first suspension point
(every recorded suspension carries `flag = true`) and is cleared when the
cycle resolves, on the success, failure and exception paths alike. -/
theorem c1_single_flight (s : SyncState) (env : Env) :
    (s.syncInProgress = true → triggerSync s env = (s, false, [])) ∧
    (s.syncInProgress = false → (triggerSync s env).1.syncInProgress = false) ∧
    (∀ e ∈ (triggerSync s env).2.2, Eff.flag e = true) := by
  refine ⟨?_, ?_, ?_⟩
  · intro h
    apply triggerSync_guard
    simp [h]
  · intro hip
    cases hon : s.isOnline with
    | false =>
        rw [triggerSync_guard s env (by simp [hon])]
        exact hip
    | true =>
        rw [triggerSync_open s env hon hip]
        cases hq : (orderByTimestamp s.syncQueue).isEmpty with
        | true => rw [if_pos rfl]
        | false =>
            rw [if_neg Bool.false_ne_true]
            exact pushPhase_inProgress { s with syncInProgress := true } env
              (orderByTimestamp s.syncQueue) (processQueue (orderByTimestamp s.syncQueue))
  · cases hon : s.isOnline with
    | false =>
        rw [triggerSync_guard s env (by simp [hon])]
        intro e he
        simp at he
    | true =>
        cases hip : s.syncInProgress with
        | true =>
            rw [triggerSync_guard s env (by simp [hip])]
            intro e he
            simp at he
        | false =>
            rw [triggerSync_open s env hon hip]
            cases hq : (orderByTimestamp s.syncQueue).isEmpty with
            | true =>
                rw [if_pos rfl]
                intro e he
                rcases List.mem_cons.mp he with h' | h'
                · rw [h']; rfl
                · rcases syncFromServer_effs { s with syncInProgress := true } env e h'
                    with h'' | h'' <;> rw [h''] <;> rfl
            | false =>
                rw [if_neg Bool.false_ne_true]
                intro e he
                simp only [List.mem_cons, List.mem_append] at he
                rcases he with (h' | h') | h'
                · rw [h']; rfl
                · obtain ⟨i, hi⟩ := deleteLoop_effs { s with syncInProgress := true } env
                    (processQueue (orderByTimestamp s.syncQueue)).deleteIds e h'
                  rw [hi]; rfl
                · exact ((pushPhase_trace { s with syncInProgress := true } env
                    (orderByTimestamp s.syncQueue)
                    (processQueue (orderByTimestamp s.syncQueue))).1 e h').1

theorem c1_single_flight_witness :
    triggerSync { baseState [] with syncInProgress := true } envAllOk
      = ({ baseState [] with syncInProgress := true }, false, []) :=
  (c1_single_flight { baseState [] with syncInProgress := true } envAllOk).1 rfl

/-- C5 counterexample: with one queued delete entry, an environment in which
the delete transmission and the pull from the server both fail (network
errors) still yields a cycle that resolves `true`, resets the backoff delay
to 1000 ms instead of doubling it, and schedules no retry timer — the
per-delete catch block and `syncFromServer`'s catch block swallow those
failures, so the coordinator never enters the backoff path. -/
theorem c5_counterexample :
    triggerSync (baseState [entryDel]) envAllFail
      = ({ baseState [] with syncRetryDelay := 1000 }, true,
         [Eff.susp true, Eff.netDelete "S" false true, Eff.susp true, Eff.netGet true]) ∧
    (baseState [entryDel]).syncRetryDelay = 4000 := by
  constructor
  · rfl
  · rfl

/-- C5 (amended): only a failure of the batched push (or of a local write
while folding its response) reaches the catch block: then every queued
entry's retry count is incremented, the delay is doubled capped at 60000 ms,
a retry trigger is scheduled after the new delay, and the cycle resolves
`false`.  A cycle whose classification produces no batch to push — whatever
happens to its delete transmissions or to the pull — resolves `true` and
schedules no retry. -/
theorem c5_failure_backoff_amended (s : SyncState) (env : Env)
    (hon : s.isOnline = true) (hip : s.syncInProgress = false) :
    ((processQueue (orderByTimestamp s.syncQueue)).notesToSync ≠ [] →
      env.postSync (processQueue (orderByTimestamp s.syncQueue)).notesToSync = .error () →
      (triggerSync s env).2.1 = false ∧
      (triggerSync s env).1.syncRetryDelay = min (s.syncRetryDelay * 2) 60000 ∧
      (triggerSync s env).1.syncQueue = bumpRetries s.syncQueue ∧
      ∃ pre, (triggerSync s env).2.2 =
        pre ++ [Eff.susp true, Eff.timer (min (s.syncRetryDelay * 2) 60000) true]) ∧
    ((processQueue (orderByTimestamp s.syncQueue)).notesToSync = [] →
      (triggerSync s env).2.1 = true ∧
      ∀ e ∈ (triggerSync s env).2.2, e.isTimer = false) := by
  constructor
  · intro hne herr
    have hqne : (orderByTimestamp s.syncQueue).isEmpty = false := by
      cases hq : (orderByTimestamp s.syncQueue).isEmpty with
      | false => rfl
      | true =>
          exact absurd (by rw [(orderByTimestamp_nil_iff s.syncQueue).mp hq] at hne ⊢; rfl) hne
    have hfalse : (triggerSync s env).2.1 = false := by
      rw [triggerSync_open s env hon hip]
      rw [hqne, if_neg Bool.false_ne_true]
      exact pushPhase_error_false { s with syncInProgress := true } env
        (orderByTimestamp s.syncQueue) (processQueue (orderByTimestamp s.syncQueue)) hne herr
    rcases triggerSync_shape s env hon hip with ⟨hres, _⟩ | ⟨_, hdel, hque, pre, htr⟩
    · rw [hfalse] at hres; cases hres
    · exact ⟨hfalse, hdel, hque, pre, htr⟩
  · intro hempty
    have htrue : (triggerSync s env).2.1 = true := by
      rw [triggerSync_open s env hon hip]
      cases hq : (orderByTimestamp s.syncQueue).isEmpty with
      | true => rw [if_pos rfl]
      | false =>
          rw [if_neg Bool.false_ne_true]
          rw [pushPhase_nil { s with syncInProgress := true } env
            (orderByTimestamp s.syncQueue) (processQueue (orderByTimestamp s.syncQueue)) hempty]
          exact (finishSuccess_proj { s with syncInProgress := true } env
            (orderByTimestamp s.syncQueue) (processQueue (orderByTimestamp s.syncQueue))).2.2.2
    rcases triggerSync_shape s env hon hip with ⟨_, _, _, htmr⟩ | ⟨hres, _⟩
    · exact ⟨htrue, htmr⟩
    · rw [htrue] at hres; cases hres

theorem c5_failure_backoff_amended_witness :
    (triggerSync (baseState [entryUpd]) envAllFail).2.1 = false ∧
    (triggerSync (baseState [entryUpd]) envAllFail).1.syncRetryDelay = 8000 := by
  have h := (c5_failure_backoff_amended (baseState [entryUpd]) envAllFail rfl rfl).1
    (by decide) rfl
  refine ⟨h.1, ?_⟩
  rw [h.2.1]
  rfl

/-- C6 counterexample: a queued delete entry whose `api.delete` call fails
with a network error is nevertheless removed from the queue by the same
cycle (which even resolves `true` and advances the watermark) — the entry is
dropped on a transient failure, with no retry-count increment, because
line 184 removes every classified delete entry whether or not its request
succeeded. -/
theorem c6_counterexample :
    triggerSync (baseState [entryDel]) envDelFail
      = ({ baseState [] with syncRetryDelay := 1000, lastSync := some 99 }, true,
         [Eff.susp true, Eff.netDelete "S" false true, Eff.susp true,
          Eff.netGet true, Eff.susp true]) ∧
    envDelFail.deleteOk "S" = false := ⟨rfl, rfl⟩

/-- C6 (amended): create/update entries survive a failed batched push — the
whole queue is retained with every retry count incremented.  After a cycle
whose push phase succeeds or is skipped, the rows removed are exactly those
marked processed, which includes every classified delete entry whether or
not its transmission succeeded. -/
theorem c6_retention_amended (s : SyncState) (env : Env)
    (hon : s.isOnline = true) (hip : s.syncInProgress = false) :
    ((triggerSync s env).2.1 = false →
      (triggerSync s env).1.syncQueue = bumpRetries s.syncQueue) ∧
    ((triggerSync s env).2.1 = true →
      (triggerSync s env).1.syncQueue = s.syncQueue.filter (fun e =>
        decide (e.id ∈ ((orderByTimestamp s.syncQueue).filter
          (isProcessed (processQueue (orderByTimestamp s.syncQueue)))).map QueueEntry.id) = false)) := by
  rcases triggerSync_shape s env hon hip with ⟨hres, hque, _, _⟩ | ⟨hres, _, hque, _⟩
  · constructor
    · intro h; rw [hres] at h; cases h
    · intro _; exact hque
  · constructor
    · intro _; exact hque
    · intro h; rw [hres] at h; cases h

theorem c6_retention_amended_witness :
    (triggerSync (baseState [entryUpd]) envAllFail).1.syncQueue
      = bumpRetries (baseState [entryUpd]).syncQueue :=
  (c6_retention_amended (baseState [entryUpd]) envAllFail rfl rfl).1 rfl

/-- C7 counterexample: a successful cycle that found the queue empty does not
reset the backoff delay — with the delay at 4000 ms and an empty queue,
`triggerSync` resolves `true` and leaves `syncRetryDelay` at 4000 ms, because
the early return at line 75 skips the reset at line 191. -/
theorem c7_counterexample :
    triggerSync (baseState []) envAllOk
      = ({ baseState [] with lastSync := some 99 }, true,
         [Eff.susp true, Eff.netGet true, Eff.susp true]) ∧
    (baseState []).syncRetryDelay = 4000 := ⟨rfl, rfl⟩

/-- C7 (amended): on every cycle that resolves `false` the delay becomes
`min (2·d) 60000` — strictly larger than `d` while `d` is below the 60000 ms
ceiling (given the 1000 ms floor), and stuck at 60000 once reached; a
successful cycle that processed a nonempty queue resets the delay to the
1000 ms floor; a successful empty-queue cycle leaves the delay unchanged. -/
theorem c7_backoff_amended (s : SyncState) (env : Env)
    (hon : s.isOnline = true) (hip : s.syncInProgress = false) :
    ((triggerSync s env).2.1 = false →
      (triggerSync s env).1.syncRetryDelay = min (s.syncRetryDelay * 2) 60000 ∧
      (1000 ≤ s.syncRetryDelay → s.syncRetryDelay < 60000 →
        s.syncRetryDelay < (triggerSync s env).1.syncRetryDelay) ∧
      (s.syncRetryDelay = 60000 → (triggerSync s env).1.syncRetryDelay = 60000)) ∧
    ((triggerSync s env).2.1 = true → s.syncQueue ≠ [] →
      (triggerSync s env).1.syncRetryDelay = 1000) ∧
    ((triggerSync s env).2.1 = true → s.syncQueue = [] →
      (triggerSync s env).1.syncRetryDelay = s.syncRetryDelay) := by
  rcases triggerSync_shape s env hon hip with ⟨hres, _, hdel, _⟩ | ⟨hres, hdel, _, _⟩
  · refine ⟨?_, ?_, ?_⟩
    · intro h; rw [hres] at h; cases h
    · intro _ hne
      rw [hdel]
      have : s.syncQueue.isEmpty = false := by
        cases hsq : s.syncQueue with
        | nil => exact absurd hsq hne
        | cons a l => rfl
      rw [this]
      simp
    · intro _ hsq
      rw [hdel, hsq]
      rfl
  · refine ⟨?_, ?_, ?_⟩
    · intro _
      refine ⟨hdel, ?_, ?_⟩
      · intro hfloor hlt
        rw [hdel]
        have h2 : s.syncRetryDelay < s.syncRetryDelay * 2 := by omega
        exact lt_min h2 hlt
      · intro h60
        rw [hdel, h60]
        rfl
    · intro h; rw [hres] at h; cases h
    · intro h; rw [hres] at h; cases h

theorem c7_backoff_amended_witness :
    (triggerSync (baseState [entryUpd]) envAllFail).1.syncRetryDelay = 8000 ∧
    (triggerSync (baseState []) envAllOk).1.syncRetryDelay = 4000 := by
  constructor
  · have h := (c7_backoff_amended (baseState [entryUpd]) envAllFail rfl rfl).1 rfl
    rw [h.1]
    rfl
  · exact (c7_backoff_amended (baseState []) envAllOk rfl rfl).2.2 rfl rfl

/-- C8: the claim is the spec's contract, which the code violates — when the
Dexie `add` inside `addToSyncQueue` fails, the catch block logs the error and
the call resolves normally: no error is surfaced to the caller (second
component `false`), the entry is not persisted, and no sync is triggered.
The enqueue therefore fails silently, contradicting "never fails silently". -/
theorem c8_enqueue_silent_failure :
    addToSyncQueue (baseState []) 7 .update
        (some { id := some "S", title := "t", content := "c", lastModified := 40 }) 5 false
      = (baseState [], false, false) := rfl

/-- C2 counterexample: with a delete entry and a later update entry queued
for the same note (local id 7, server id "S"), the cycle transmits the delete
AND still includes the update's payload in the batched push — the
create/update entry for the deleted identity is not discarded without
transmission, contradicting the claim. -/
theorem c2_counterexample :
    ((triggerSync (baseState [entryDel, entryUpd]) envAllOk).2.2.filter Eff.isNetPost
      = [Eff.netPost [some { id := some "S", title := "t2", content := "c2", lastModified := 50 }] true]) ∧
    ((triggerSync (baseState [entryDel, entryUpd]) envAllOk).2.2.filter Eff.isNetDelete
      = [Eff.netDelete "S" true true]) ∧
    entryUpd.data = some { id := some "S", title := "t2", content := "c2", lastModified := 50 } := by
  refine ⟨rfl, rfl, rfl⟩

theorem processGo_mono (full : List QueueEntry) (l : List QueueEntry) (acc : ProcResult) :
    ∃ extra, (processGo full l acc).processedIds = acc.processedIds ++ extra := by
  induction l generalizing acc with
  | nil => exact ⟨[], by simp [processGo]⟩
  | cons item rest ih =>
      cases hact : item.action <;> cases hdit : dataIdTruthy item.data <;>
        simp only [processGo, hact, hdit] <;>
        first
        | (obtain ⟨extra, hx⟩ := ih { acc with deleteIds := acc.deleteIds ++ [_] }
           exact ⟨extra, hx⟩)
        | (by_cases hmem : item.noteId ∈ acc.processedIds
           · simp only [hmem, if_true]
             exact ih acc
           · simp only [hmem, if_false]
             cases hlat : latestFor full item.noteId with
             | none => exact ih acc
             | some latest =>
                 obtain ⟨extra, hx⟩ := ih { acc with
                   processedIds := acc.processedIds ++ [item.noteId],
                   notesToSync := acc.notesToSync ++ [latest.data] }
                 exact ⟨[item.noteId] ++ extra, by rw [hx]; simp⟩)

theorem processGo_nodup (full : List QueueEntry) (l : List QueueEntry) (acc : ProcResult)
    (hnd : acc.processedIds.Nodup) : (processGo full l acc).processedIds.Nodup := by
  induction l generalizing acc with
  | nil => simpa [processGo] using hnd
  | cons item rest ih =>
      cases hact : item.action <;> cases hdit : dataIdTruthy item.data <;>
        simp only [processGo, hact, hdit] <;>
        first
        | exact ih { acc with deleteIds := acc.deleteIds ++ [_] } hnd
        | (by_cases hmem : item.noteId ∈ acc.processedIds
           · simp only [hmem, if_true]
             exact ih acc hnd
           · simp only [hmem, if_false]
             cases hlat : latestFor full item.noteId with
             | none => exact ih acc hnd
             | some latest =>
                 refine ih { acc with
                   processedIds := acc.processedIds ++ [item.noteId],
                   notesToSync := acc.notesToSync ++ [latest.data] } ?_
                 simpa [List.nodup_append] using ⟨hnd, hmem⟩)

theorem processGo_corr (full : List QueueEntry) (l : List QueueEntry) (acc : ProcResult)
    (hc : acc.notesToSync = acc.processedIds.map (fun n => (latestFor full n).bind QueueEntry.data)) :
    (processGo full l acc).notesToSync =
      (processGo full l acc).processedIds.map (fun n => (latestFor full n).bind QueueEntry.data) := by
  induction l generalizing acc with
  | nil => simpa [processGo] using hc
  | cons item rest ih =>
      cases hact : item.action <;> cases hdit : dataIdTruthy item.data <;>
        simp only [processGo, hact, hdit] <;>
        first
        | exact ih { acc with deleteIds := acc.deleteIds ++ [_] } hc
        | (by_cases hmem : item.noteId ∈ acc.processedIds
           · simp only [hmem, if_true]
             exact ih acc hc
           · simp only [hmem, if_false]
             cases hlat : latestFor full item.noteId with
             | none => exact ih acc hc
             | some latest =>
                 refine ih { acc with
                   processedIds := acc.processedIds ++ [item.noteId],
                   notesToSync := acc.notesToSync ++ [latest.data] } ?_
                 simp only [List.map_append, List.map_cons, List.map_nil]
                 rw [hc, hlat]
                 rfl)

theorem processGo_mem (full : List QueueEntry) (l : List QueueEntry) (acc : ProcResult)
    (nid : Nat) (e : QueueEntry) (he : e ∈ l) (hid : e.noteId = nid)
    (hact : e.action ≠ SyncAction.delete) (m : QueueEntry)
    (hlat : latestFor full nid = some m) :
    nid ∈ (processGo full l acc).processedIds := by
  induction l generalizing acc with
  | nil => cases he
  | cons item rest ih =>
      rcases List.mem_cons.mp he with heq | hrest
      · subst heq
        cases hact' : e.action with
        | delete => exact absurd hact' hact
        | create =>
            cases hdit : dataIdTruthy e.data <;> simp only [processGo, hact', hdit] <;>
              (by_cases hmem : e.noteId ∈ acc.processedIds
               · simp only [hmem, if_true]
                 obtain ⟨extra, hx⟩ := processGo_mono full rest acc
                 rw [hx]
                 rw [hid] at hmem
                 exact List.mem_append_left _ hmem
               · simp only [hmem, if_false]
                 cases hlat' : latestFor full e.noteId with
                 | none =>
                     rw [hid] at hlat'
                     rw [hlat'] at hlat
                     cases hlat
                 | some latest =>
                     obtain ⟨extra, hx⟩ := processGo_mono full rest
                       { acc with processedIds := acc.processedIds ++ [e.noteId],
                                  notesToSync := acc.notesToSync ++ [latest.data] }
                     rw [hx]
                     rw [← hid]
                     exact List.mem_append_left _ (List.mem_append_right _ (List.mem_singleton.mpr rfl)))
        | update =>
            cases hdit : dataIdTruthy e.data <;> simp only [processGo, hact', hdit] <;>
              (by_cases hmem : e.noteId ∈ acc.processedIds
               · simp only [hmem, if_true]
                 obtain ⟨extra, hx⟩ := processGo_mono full rest acc
                 rw [hx]
                 rw [hid] at hmem
                 exact List.mem_append_left _ hmem
               · simp only [hmem, if_false]
                 cases hlat' : latestFor full e.noteId with
                 | none =>
                     rw [hid] at hlat'
                     rw [hlat'] at hlat
                     cases hlat
                 | some latest =>
                     obtain ⟨extra, hx⟩ := processGo_mono full rest
                       { acc with processedIds := acc.processedIds ++ [e.noteId],
                                  notesToSync := acc.notesToSync ++ [latest.data] }
                     rw [hx]
                     rw [← hid]
                     exact List.mem_append_left _ (List.mem_append_right _ (List.mem_singleton.mpr rfl)))
      · cases hact' : item.action <;> cases hdit : dataIdTruthy item.data <;>
          simp only [processGo, hact', hdit] <;>
          first
          | exact ih _ hrest
          | (by_cases hmem : item.noteId ∈ acc.processedIds
             · simp only [hmem, if_true]
               exact ih acc hrest
             · simp only [hmem, if_false]
               cases hlat' : latestFor full item.noteId with
               | none => exact ih acc hrest
               | some latest => exact ih _ hrest)

theorem sortStable_desc_head (l : List QueueEntry) (x : QueueEntry) (t : List QueueEntry)
    (h : sortStable (fun a b => b.timestamp ≤ a.timestamp) l = x :: t) :
    ∀ e ∈ l, e.timestamp ≤ x.timestamp := by
  induction l generalizing x t with
  | nil => cases h
  | cons y ys ih =>
      intro e he
      rw [sortStable] at h
      cases hs : sortStable (fun a b => b.timestamp ≤ a.timestamp) ys with
      | nil =>
          rw [hs] at h
          rw [insertStable] at h
          injection h with h1 h2
          have hys : ys = [] := by
            have hp := sortStable_perm (fun a b => b.timestamp ≤ a.timestamp) ys
            rw [hs] at hp
            exact hp.symm.eq_nil
          subst hys
          subst h1
          rcases List.mem_singleton.mp he with rfl
          exact le_refl _
      | cons hd tl =>
          rw [hs] at h
          rw [insertStable] at h
          by_cases hcmp : hd.timestamp ≤ y.timestamp
          · rw [if_pos (by simpa using hcmp)] at h
            injection h with h1 h2
            subst h1
            rcases List.mem_cons.mp he with rfl | hys
            · exact le_refl _
            · exact le_trans (ih hd tl hs e hys) hcmp
          · rw [if_neg (by simpa using hcmp)] at h
            injection h with h1 h2
            subst h1
            rcases List.mem_cons.mp he with rfl | hys
            · omega
            · exact ih hd tl hs e hys

theorem latestFor_eq (queue : List QueueEntry) (nid : Nat) (m : QueueEntry)
    (hm : m ∈ queue) (hmid : m.noteId = nid) (hma : m.action ≠ SyncAction.delete)
    (hmax : ∀ e ∈ queue, e.noteId = nid → e.action ≠ SyncAction.delete →
      e ≠ m → e.timestamp < m.timestamp) :
    latestFor queue nid = some m := by
  unfold latestFor
  have hmfl : m ∈ queue.filter (fun q => q.noteId = nid ∧ q.action ≠ SyncAction.delete) := by
    refine List.mem_filter.mpr ⟨hm, ?_⟩
    simp [hmid, hma]
  cases hs : sortStable (fun a b => b.timestamp ≤ a.timestamp)
      (queue.filter fun q => q.noteId = nid ∧ q.action ≠ SyncAction.delete) with
  | nil =>
      have hnil : queue.filter (fun q => q.noteId = nid ∧ q.action ≠ SyncAction.delete) = [] := by
        have hp := sortStable_perm (fun a b => b.timestamp ≤ a.timestamp)
          (queue.filter fun q => q.noteId = nid ∧ q.action ≠ SyncAction.delete)
        rw [hs] at hp
        exact hp.symm.eq_nil
      rw [hnil] at hmfl
      cases hmfl
  | cons x t =>
      have hxmem : x ∈ queue.filter (fun q => q.noteId = nid ∧ q.action ≠ SyncAction.delete) := by
        have hp := sortStable_perm (fun a b => b.timestamp ≤ a.timestamp)
          (queue.filter fun q => q.noteId = nid ∧ q.action ≠ SyncAction.delete)
        rw [hs] at hp
        exact hp.mem_iff.mp (List.mem_cons_self x t)
      obtain ⟨hxq, hxp⟩ := List.mem_filter.mp hxmem
      have hxp' : x.noteId = nid ∧ x.action ≠ SyncAction.delete := by simpa using hxp
      by_cases hxm : x = m
      · subst hxm
        rfl
      · have hlt := hmax x hxq hxp'.1 hxp'.2 hxm
        have hle := sortStable_desc_head _ x t hs m hmfl
        exact absurd hle (by omega)

/-- C3: when the queue holds one or more create/update entries for a note
identity and no delete for it, the cycle marks that identity processed
exactly once, the payload chosen for it is the data of the entry with the
strictly greatest enqueue timestamp among them, and that payload travels in
the single batched push of the cycle (the trace holds exactly one `netPost`
event, carrying `notesToSync`). -/
theorem c3_queue_collapsing (s : SyncState) (env : Env) (nid : Nat) (m : QueueEntry)
    (hon : s.isOnline = true) (hip : s.syncInProgress = false)
    (hm : m ∈ s.syncQueue) (hmid : m.noteId = nid) (hma : m.action ≠ SyncAction.delete)
    (hnodel : ∀ e ∈ s.syncQueue, e.noteId = nid → e.action ≠ SyncAction.delete)
    (hmax : ∀ e ∈ s.syncQueue, e.noteId = nid → e ≠ m → e.timestamp < m.timestamp) :
    ((processQueue (orderByTimestamp s.syncQueue)).processedIds.count nid = 1) ∧
    ((processQueue (orderByTimestamp s.syncQueue)).notesToSync[
       (processQueue (orderByTimestamp s.syncQueue)).processedIds.indexOf nid]? = some m.data) ∧
    (∃ pre post, (triggerSync s env).2.2 =
       pre ++ Eff.netPost (processQueue (orderByTimestamp s.syncQueue)).notesToSync true :: post ∧
       (∀ e ∈ pre, e.isNetPost = false) ∧ (∀ e ∈ post, e.isNetPost = false)) := by
  have hpm : ∀ {e : QueueEntry}, e ∈ orderByTimestamp s.syncQueue ↔ e ∈ s.syncQueue :=
    fun {e} => (orderByTimestamp_perm s.syncQueue).mem_iff
  have hmQ : m ∈ orderByTimestamp s.syncQueue := hpm.mpr hm
  have hlat : latestFor (orderByTimestamp s.syncQueue) nid = some m := by
    refine latestFor_eq _ nid m hmQ hmid hma ?_
    intro e he h1 _ h3
    exact hmax e (hpm.mp he) h1 h3
  have hmem : nid ∈ (processQueue (orderByTimestamp s.syncQueue)).processedIds :=
    processGo_mem (orderByTimestamp s.syncQueue) (orderByTimestamp s.syncQueue)
      ⟨[], [], []⟩ nid m hmQ hmid hma m hlat
  have hnd : (processQueue (orderByTimestamp s.syncQueue)).processedIds.Nodup :=
    processGo_nodup (orderByTimestamp s.syncQueue) (orderByTimestamp s.syncQueue)
      ⟨[], [], []⟩ List.nodup_nil
  have hcorr : (processQueue (orderByTimestamp s.syncQueue)).notesToSync =
      (processQueue (orderByTimestamp s.syncQueue)).processedIds.map
        (fun n => (latestFor (orderByTimestamp s.syncQueue) n).bind QueueEntry.data) :=
    processGo_corr (orderByTimestamp s.syncQueue) (orderByTimestamp s.syncQueue) ⟨[], [], []⟩ rfl
  have hlt := List.indexOf_lt_length.mpr hmem
  refine ⟨List.count_eq_one_of_mem hnd hmem, ?_, ?_⟩
  · rw [hcorr, List.getElem?_map, List.getElem?_eq_getElem hlt, List.getElem_indexOf hlt]
    simp [hlat]
  · have hne : (processQueue (orderByTimestamp s.syncQueue)).notesToSync ≠ [] := by
      intro h
      rw [hcorr] at h
      rw [List.map_eq_nil_iff] at h
      rw [h] at hmem
      cases hmem
    have hqe : (orderByTimestamp s.syncQueue).isEmpty = false := by
      cases hq : orderByTimestamp s.syncQueue with
      | nil => rw [hq] at hmQ; cases hmQ
      | cons a l => rfl
    rw [triggerSync_open s env hon hip, hqe, if_neg Bool.false_ne_true]
    rcases (pushPhase_trace { s with syncInProgress := true } env
        (orderByTimestamp s.syncQueue) (processQueue (orderByTimestamp s.syncQueue))).2 with
      ⟨hnil, _⟩ | ⟨rest, htr, hnp⟩
    · exact absurd hnil hne
    · refine ⟨Eff.susp true :: deleteLoop { s with syncInProgress := true } env
        (processQueue (orderByTimestamp s.syncQueue)).deleteIds, rest, ?_, ?_, hnp⟩
      · rw [htr]
      · intro e he
        rcases List.mem_cons.mp he with h' | h'
        · rw [h']; rfl
        · obtain ⟨i, hi⟩ := deleteLoop_effs { s with syncInProgress := true } env
            (processQueue (orderByTimestamp s.syncQueue)).deleteIds e h'
          rw [hi]; rfl

theorem c3_queue_collapsing_witness :
    (processQueue (orderByTimestamp (baseState [entryUpd]).syncQueue)).processedIds.count 7 = 1 ∧
    (processQueue (orderByTimestamp (baseState [entryUpd]).syncQueue)).notesToSync[
      (processQueue (orderByTimestamp (baseState [entryUpd]).syncQueue)).processedIds.indexOf 7]?
      = some entryUpd.data := by
  have h := c3_queue_collapsing (baseState [entryUpd]) envAllOk 7 entryUpd rfl rfl
    (by decide) rfl (by decide) (by decide) (by decide)
  exact ⟨h.1, h.2.1⟩

/-- C2 (amended): all delete transmissions of a cycle do happen before the
batched create/update transmission — the trace splits into a prefix with no
`netPost` followed by a suffix with no `netDelete` — but create/update
entries for an identity that also has a queued delete are NOT discarded: the
latest such entry's payload is still included in the batched push. -/
theorem c2_delete_precedence_amended (s : SyncState) (env : Env) :
    (∃ A B, (triggerSync s env).2.2 = A ++ B ∧
      (∀ e ∈ A, e.isNetPost = false) ∧ (∀ e ∈ B, e.isNetDelete = false)) ∧
    (∀ nid dl m, s.isOnline = true → s.syncInProgress = false →
      dl ∈ s.syncQueue → dl.noteId = nid → dl.action = SyncAction.delete →
      m ∈ s.syncQueue → m.noteId = nid → m.action ≠ SyncAction.delete →
      (∀ e ∈ s.syncQueue, e.noteId = nid → e.action ≠ SyncAction.delete →
        e ≠ m → e.timestamp < m.timestamp) →
      m.data ∈ (processQueue (orderByTimestamp s.syncQueue)).notesToSync) := by
  constructor
  · by_cases hon : s.isOnline = true
    · by_cases hip : s.syncInProgress = false
      · rw [triggerSync_open s env hon hip]
        cases hq : (orderByTimestamp s.syncQueue).isEmpty with
        | true =>
            rw [if_pos rfl]
            refine ⟨[], Eff.susp true :: (syncFromServer { s with syncInProgress := true } env).2,
              rfl, ?_, ?_⟩
            · intro e he
              cases he
            intro e he
            rcases List.mem_cons.mp he with h' | h'
            · rw [h']; rfl
            · rcases syncFromServer_effs { s with syncInProgress := true } env e h' with h'' | h'' <;>
                rw [h''] <;> rfl
        | false =>
            rw [if_neg Bool.false_ne_true]
            refine ⟨Eff.susp true :: deleteLoop { s with syncInProgress := true } env
              (processQueue (orderByTimestamp s.syncQueue)).deleteIds,
              (pushPhase { s with syncInProgress := true } env (orderByTimestamp s.syncQueue)
                (processQueue (orderByTimestamp s.syncQueue))).2.2, rfl, ?_, ?_⟩
            · intro e he
              rcases List.mem_cons.mp he with h' | h'
              · rw [h']; rfl
              · obtain ⟨i, hi⟩ := deleteLoop_effs { s with syncInProgress := true } env
                  (processQueue (orderByTimestamp s.syncQueue)).deleteIds e h'
                rw [hi]; rfl
            · intro e he
              exact ((pushPhase_trace { s with syncInProgress := true } env
                (orderByTimestamp s.syncQueue)
                (processQueue (orderByTimestamp s.syncQueue))).1 e he).2
      · rw [triggerSync_guard s env (by simp [Bool.of_not_eq_false hip])]
        refine ⟨[], [], rfl, ?_, ?_⟩ <;> intro e he <;> cases he
    · rw [triggerSync_guard s env (by simp [Bool.of_not_eq_true hon])]
      refine ⟨[], [], rfl, ?_, ?_⟩ <;> intro e he <;> cases he
  · intro nid dl m hon hip hdl hdlid hdlact hm hmid hma hmax
    have hpm : ∀ {e : QueueEntry}, e ∈ orderByTimestamp s.syncQueue ↔ e ∈ s.syncQueue :=
      fun {e} => (orderByTimestamp_perm s.syncQueue).mem_iff
    have hmQ : m ∈ orderByTimestamp s.syncQueue := hpm.mpr hm
    have hlat : latestFor (orderByTimestamp s.syncQueue) nid = some m := by
      refine latestFor_eq _ nid m hmQ hmid hma ?_
      intro e he h1 h2 h3
      exact hmax e (hpm.mp he) h1 h2 h3
    have hmem : nid ∈ (processQueue (orderByTimestamp s.syncQueue)).processedIds :=
      processGo_mem (orderByTimestamp s.syncQueue) (orderByTimestamp s.syncQueue)
        ⟨[], [], []⟩ nid m hmQ hmid hma m hlat
    have hcorr : (processQueue (orderByTimestamp s.syncQueue)).notesToSync =
        (processQueue (orderByTimestamp s.syncQueue)).processedIds.map
          (fun n => (latestFor (orderByTimestamp s.syncQueue) n).bind QueueEntry.data) :=
      processGo_corr (orderByTimestamp s.syncQueue) (orderByTimestamp s.syncQueue) ⟨[], [], []⟩ rfl
    rw [hcorr]
    have := List.mem_map_of_mem
      (fun n => (latestFor (orderByTimestamp s.syncQueue) n).bind QueueEntry.data) hmem
    simpa [hlat] using this

theorem c2_delete_precedence_amended_witness :
    entryUpd.data ∈ (processQueue (orderByTimestamp (baseState [entryDel, entryUpd]).syncQueue)).notesToSync :=
  (c2_delete_precedence_amended (baseState [entryDel, entryUpd]) envAllOk).2 7 entryDel entryUpd
    rfl rfl (by decide) rfl rfl (by decide) rfl (by decide) (by decide)

theorem find?_map_mem {α : Type} (l : List α) (g : α → α) (p : α → Bool)
    (h : ∀ x ∈ l, p (g x) = p x) : (l.map g).find? p = (l.find? p).map g := by
  induction l with
  | nil => rfl
  | cons x xs ih =>
      simp only [List.map_cons, List.find?_cons]
      rw [h x (List.mem_cons_self x xs)]
      cases hx : p x with
      | true => rfl
      | false => exact ih (fun y hy => h y (List.mem_cons_of_mem x hy))

theorem find?_append_none {α : Type} (l₁ l₂ : List α) (p : α → Bool)
    (h : l₁.find? p = none) : (l₁ ++ l₂).find? p = l₂.find? p := by
  induction l₁ with
  | nil => rfl
  | cons x xs ih =>
      simp only [List.cons_append, List.find?_cons] at h ⊢
      cases hx : p x with
      | true => rw [hx] at h; cases h
      | false =>
          rw [hx] at h
          exact ih h

theorem find?_of_unique {α : Type} (l : List α) (p : α → Bool) (a : α)
    (hmem : a ∈ l) (hp : p a = true) (huniq : ∀ x ∈ l, p x = true → x = a) :
    l.find? p = some a := by
  induction l with
  | nil => cases hmem
  | cons x xs ih =>
      simp only [List.find?_cons]
      cases hx : p x with
      | true => rw [huniq x (List.mem_cons_self x xs) hx]
      | false =>
          rcases List.mem_cons.mp hmem with rfl | hmem'
          · rw [hp] at hx; cases hx
          · exact ih hmem' (fun y hy hpy => huniq y (List.mem_cons_of_mem x hy) hpy)

theorem reconcilePulled_some (s : SyncState) (n : ServerNote) (sid : String)
    (hid : n.jsId = some sid) :
    reconcilePulled s n =
      (match findByServerId s.notes sid with
       | some ln => .ok { s with notes := s.notes.map (pulledUpdate n ln.id) }
       | none => .ok { s with notes := s.notes ++ [newNoteFrom s sid n],
                              nextNoteId := s.nextNoteId + 1 }) := by
  unfold reconcilePulled
  rw [hid]

theorem reconcilePushed_some (s : SyncState) (n : ServerNote) (sid : String)
    (hid : n.jsId = some sid) :
    reconcilePushed s n =
      (match findByServerId s.notes sid with
       | some ln => .ok { s with notes := updateNotePushed s.notes ln.id sid n }
       | none =>
         match findByTitleUnsynced s.notes n.title with
         | some ln => .ok { s with notes := updateNotePushed s.notes ln.id sid n }
         | none =>
             .ok { s with notes := s.notes ++ [newNoteFrom s sid n],
                          nextNoteId := s.nextNoteId + 1 }) := by
  unfold reconcilePushed
  rw [hid]


theorem pulledUpdate_serverId (n : ServerNote) (lid : Nat) (x : LocalNote) :
    (pulledUpdate n lid x).serverId = x.serverId := by
  unfold pulledUpdate
  by_cases hx : x.id = lid <;> simp [hx]

theorem pulledUpdate_id (n : ServerNote) (lid : Nat) (x : LocalNote) :
    (pulledUpdate n lid x).id = x.id := by
  unfold pulledUpdate
  by_cases hx : x.id = lid <;> simp [hx]

theorem pulledUpdate_idem (n : ServerNote) (lid : Nat) (x : LocalNote) :
    pulledUpdate n lid (pulledUpdate n lid x) = pulledUpdate n lid x := by
  unfold pulledUpdate
  by_cases hx : x.id = lid <;> simp [hx]

theorem reconcilePulled_idem (s : SyncState) (n : ServerNote) (sid : String)
    (hid : n.jsId = some sid)
    (hfresh : ∀ x ∈ s.notes, x.id < s.nextNoteId) :
    (reconcilePulled s n).bind (fun s' => reconcilePulled s' n) = reconcilePulled s n := by
  rw [reconcilePulled_some s n sid hid]
  cases hf : findByServerId s.notes sid with
  | some ln =>
      show reconcilePulled { s with notes := s.notes.map (pulledUpdate n ln.id) } n = _
      rw [reconcilePulled_some _ n sid hid]
      have hfind2 : findByServerId (s.notes.map (pulledUpdate n ln.id)) sid
          = some (pulledUpdate n ln.id ln) := by
        unfold findByServerId at hf ⊢
        rw [find?_map_mem s.notes _ _ (by intro x _; rw [pulledUpdate_serverId]), hf]
        rfl
      cases hf2 : findByServerId (s.notes.map (pulledUpdate n ln.id)) sid with
      | none => rw [hfind2] at hf2; cases hf2
      | some ln2 =>
          rw [hfind2] at hf2
          injection hf2 with hln2
          subst hln2
          have hnotes : (s.notes.map (pulledUpdate n ln.id)).map
              (pulledUpdate n (pulledUpdate n ln.id ln).id)
              = s.notes.map (pulledUpdate n ln.id) := by
            rw [pulledUpdate_id, List.map_map]
            exact List.map_congr_left fun x _ => pulledUpdate_idem n ln.id x
          simp only [hnotes]
  | none =>
      show reconcilePulled { s with notes := s.notes ++ [newNoteFrom s sid n],
                                    nextNoteId := s.nextNoteId + 1 } n = _
      rw [reconcilePulled_some _ n sid hid]
      have hfind2 : findByServerId (s.notes ++ [newNoteFrom s sid n]) sid
          = some (newNoteFrom s sid n) := by
        unfold findByServerId at hf ⊢
        rw [find?_append_none _ _ _ hf]
        simp [newNoteFrom]
      cases hf2 : findByServerId (s.notes ++ [newNoteFrom s sid n]) sid with
      | none => rw [hfind2] at hf2; cases hf2
      | some ln2 =>
          rw [hfind2] at hf2
          injection hf2 with hln2
          subst hln2
          have hnotes : (s.notes ++ [newNoteFrom s sid n]).map
              (pulledUpdate n (newNoteFrom s sid n).id)
              = s.notes ++ [newNoteFrom s sid n] := by
            rw [List.map_append]
            congr 1
            · refine (List.map_congr_left ?_).trans (List.map_id s.notes)
              intro x hx
              have := hfresh x hx
              simp only [id]
              unfold pulledUpdate
              rw [if_neg (by simp [newNoteFrom]; omega)]
            · simp [pulledUpdate, newNoteFrom]
          simp only [hnotes]

theorem pushedUpdate_id (sid : String) (n : ServerNote) (lid : Nat) (x : LocalNote) :
    (pushedUpdate sid n lid x).id = x.id := by
  unfold pushedUpdate
  by_cases hx : x.id = lid <;> simp [hx]

theorem pushedUpdate_idem (sid : String) (n : ServerNote) (lid : Nat) (x : LocalNote) :
    pushedUpdate sid n lid (pushedUpdate sid n lid x) = pushedUpdate sid n lid x := by
  unfold pushedUpdate
  by_cases hx : x.id = lid <;> simp [hx]

theorem reconcilePushed_idem (s : SyncState) (n : ServerNote) (sid : String)
    (hid : n.jsId = some sid)
    (hids : (s.notes.map LocalNote.id).Nodup)
    (hfresh : ∀ x ∈ s.notes, x.id < s.nextNoteId) :
    (reconcilePushed s n).bind (fun s' => reconcilePushed s' n) = reconcilePushed s n := by
  have hinj := List.inj_on_of_nodup_map hids
  rw [reconcilePushed_some s n sid hid]
  cases hf : findByServerId s.notes sid with
  | some ln =>
      have hlnmem : ln ∈ s.notes := List.mem_of_find?_eq_some hf
      have hf' : s.notes.find? (fun y => decide (y.serverId = some sid)) = some ln := hf
      have hlnsid : ln.serverId = some sid := by
        have hps := List.find?_some hf'
        simpa using hps
      show reconcilePushed { s with notes := updateNotePushed s.notes ln.id sid n } n = _
      rw [reconcilePushed_some _ n sid hid]
      have hpres : ∀ x ∈ s.notes,
          (fun y : LocalNote => decide (y.serverId = some sid)) (pushedUpdate sid n ln.id x)
            = decide (x.serverId = some sid) := by
        intro x hx
        by_cases hxid : x.id = ln.id
        · have hxl : x = ln := hinj hx hlnmem hxid
          subst hxl
          simp [pushedUpdate, hlnsid]
        · simp [pushedUpdate, hxid]
      have hfind2 : findByServerId (updateNotePushed s.notes ln.id sid n) sid
          = some (pushedUpdate sid n ln.id ln) := by
        unfold findByServerId at hf ⊢
        unfold updateNotePushed
        rw [find?_map_mem s.notes _ _ hpres, hf]
        rfl
      cases hf2 : findByServerId (updateNotePushed s.notes ln.id sid n) sid with
      | none => rw [hfind2] at hf2; cases hf2
      | some ln2 =>
          rw [hfind2] at hf2
          injection hf2 with hln2
          subst hln2
          have hnotes : updateNotePushed (updateNotePushed s.notes ln.id sid n)
              (pushedUpdate sid n ln.id ln).id sid n = updateNotePushed s.notes ln.id sid n := by
            unfold updateNotePushed
            rw [pushedUpdate_id, List.map_map]
            exact List.map_congr_left fun x _ => pushedUpdate_idem sid n ln.id x
          simp only [hnotes]
  | none =>
      cases hft : findByTitleUnsynced s.notes n.title with
      | some ln =>
          have hlnmem : ln ∈ s.notes := List.mem_of_find?_eq_some hft
          show reconcilePushed { s with notes := updateNotePushed s.notes ln.id sid n } n = _
          rw [reconcilePushed_some _ n sid hid]
          have hfind2 : findByServerId (updateNotePushed s.notes ln.id sid n) sid
              = some (pushedUpdate sid n ln.id ln) := by
            unfold findByServerId
            unfold updateNotePushed
            refine find?_of_unique _ _ _ (List.mem_map_of_mem _ hlnmem) ?_ ?_
            · simp [pushedUpdate]
            · intro x' hx' hp'
              obtain ⟨x, hx, rfl⟩ := List.mem_map.mp hx'
              by_cases hxid : x.id = ln.id
              · rw [hinj hx hlnmem hxid]
              · rw [show pushedUpdate sid n ln.id x = x by simp [pushedUpdate, hxid]] at hp' ⊢
                have : x.serverId = some sid := of_decide_eq_true hp'
                unfold findByServerId at hf
                exact absurd (by simpa using this) (List.find?_eq_none.mp hf x hx)
          cases hf2 : findByServerId (updateNotePushed s.notes ln.id sid n) sid with
          | none => rw [hfind2] at hf2; cases hf2
          | some ln2 =>
              rw [hfind2] at hf2
              injection hf2 with hln2
              subst hln2
              have hnotes : updateNotePushed (updateNotePushed s.notes ln.id sid n)
                  (pushedUpdate sid n ln.id ln).id sid n = updateNotePushed s.notes ln.id sid n := by
                unfold updateNotePushed
                rw [pushedUpdate_id, List.map_map]
                exact List.map_congr_left fun x _ => pushedUpdate_idem sid n ln.id x
              simp only [hnotes]
      | none =>
          show reconcilePushed { s with notes := s.notes ++ [newNoteFrom s sid n],
                                        nextNoteId := s.nextNoteId + 1 } n = _
          rw [reconcilePushed_some _ n sid hid]
          have hfind2 : findByServerId (s.notes ++ [newNoteFrom s sid n]) sid
              = some (newNoteFrom s sid n) := by
            unfold findByServerId at hf ⊢
            rw [find?_append_none _ _ _ hf]
            simp [newNoteFrom]
          cases hf2 : findByServerId (s.notes ++ [newNoteFrom s sid n]) sid with
          | none => rw [hfind2] at hf2; cases hf2
          | some ln2 =>
              rw [hfind2] at hf2
              injection hf2 with hln2
              subst hln2
              have hnotes : updateNotePushed (s.notes ++ [newNoteFrom s sid n])
                  (newNoteFrom s sid n).id sid n = s.notes ++ [newNoteFrom s sid n] := by
                unfold updateNotePushed
                rw [List.map_append]
                congr 1
                · refine (List.map_congr_left ?_).trans (List.map_id s.notes)
                  intro x hx
                  have := hfresh x hx
                  simp only [id]
                  unfold pushedUpdate
                  rw [if_neg (by simp [newNoteFrom]; omega)]
                · simp [pushedUpdate, newNoteFrom]
              simp only [hnotes]

/-- C9: reconciling the same server record twice leaves the local notes
store exactly as reconciling it once — the second application matches the
existing record by its server identity and rewrites the same field values,
creating no duplicate — both for the pull path of `syncFromServer` and for
the `created`/`updated` fold of `triggerSync` (with its title fallback).
Stated for well-formed stores: primary keys are unique and below the
auto-increment counter, as Dexie guarantees. -/
theorem c9_reconcile_idempotent (s : SyncState) (n : ServerNote) (sid : String)
    (hid : n.jsId = some sid)
    (hids : (s.notes.map LocalNote.id).Nodup)
    (hfresh : ∀ x ∈ s.notes, x.id < s.nextNoteId) :
    (reconcilePulled s n).bind (fun s' => reconcilePulled s' n) = reconcilePulled s n ∧
    (reconcilePushed s n).bind (fun s' => reconcilePushed s' n) = reconcilePushed s n :=
  ⟨reconcilePulled_idem s n sid hid hfresh, reconcilePushed_idem s n sid hid hids hfresh⟩

theorem c9_reconcile_idempotent_witness :
    (reconcilePulled (baseState []) ⟨some "S", none, "t", "c", some 5, none, none⟩).bind
        (fun s' => reconcilePulled s' ⟨some "S", none, "t", "c", some 5, none, none⟩)
      = reconcilePulled (baseState []) ⟨some "S", none, "t", "c", some 5, none, none⟩ ∧
    (reconcilePushed (baseState []) ⟨some "S", none, "t", "c", some 5, none, none⟩).bind
        (fun s' => reconcilePushed s' ⟨some "S", none, "t", "c", some 5, none, none⟩)
      = reconcilePushed (baseState []) ⟨some "S", none, "t", "c", some 5, none, none⟩ :=
  c9_reconcile_idempotent (baseState []) ⟨some "S", none, "t", "c", some 5, none, none⟩ "S"
    (by decide) (by decide) (by decide)

theorem serverSync_c4_reduce (a b : Nat) :
    serverSync c4SEnv ⟨[c4Server b], 0⟩ 0 [some (c4Note a)]
      = if b + 1 ≤ a + 1
        then .ok (⟨[c4Upd a b], 0⟩, ⟨[], [c4Upd a b], []⟩)
        else .ok (⟨[c4Server b], 0⟩, ⟨[], [], [⟨some "S", some (c4Server b)⟩]⟩) := rfl

theorem pushPhase_ok_resp (s : SyncState) (env : Env) (q : List QueueEntry) (r : ProcResult)
    (d : Option NoteData) (ds : List (Option NoteData)) (resp : SyncResponse)
    (hns : r.notesToSync = d :: ds) (hp : env.postSync (d :: ds) = .ok resp)
    (hcu : (applyCU s (resp.created ++ resp.updated)).2.2 = true)
    (hcf : (conflictLoop (applyCU s (resp.created ++ resp.updated)).1 resp.conflicts).2.2 = true) :
    (pushPhase s env q r).1 =
      (finishSuccess (conflictLoop (applyCU s (resp.created ++ resp.updated)).1 resp.conflicts).1 env q r).1 ∧
    (pushPhase s env q r).2.1 = true := by
  unfold pushPhase
  split
  · rename_i xns heqns
    rw [hns] at heqns
    cases heqns
  · rename_i xns d' ds' heqns
    rw [hns] at heqns
    injection heqns with h1 h2
    subst h1
    subst h2
    split
    · rename_i x2 e' heqp
      rw [hp] at heqp
      cases heqp
    · rename_i x2 resp' heqp
      rw [hp] at heqp
      injection heqp with h3
      subst h3
      dsimp only
      split
      · split
        · exact ⟨rfl, rfl⟩
        · rename_i x3 heqcf
          rw [hcf] at heqcf
          cases heqcf
      · rename_i x3 heqcu
        rw [hcu] at heqcu
        cases heqcu

/-- C4: last-write-wins conflict resolution between a local update with
`lastModified = a + 1` (T1) and the server's stored record with
`lastModified = b + 1` (T2), the push endpoint being the embedded
`POST /notes/sync` handler of `backend/routes/auth.routes.js` lines
287-368.  If T1 ≥ T2 — including the tie — the client's version is kept:
the local row is rewritten with the client's title, content and timestamp
and marked synced.  If T1 < T2 the server's version is written into the
local store.  In both branches the queued mutation is removed, the cycle
reports success and no retry timer is scheduled (the losing mutation is
dropped without retry). -/
theorem c4_conflict_lww (a b : Nat) :
    (b + 1 ≤ a + 1 →
      (triggerSync (c4State a) (c4Env b)).1.notes
        = [{ id := 5, serverId := some "S", title := "ct", content := "cc",
             lastModified := some (a + 1), synced := true, userId := none }] ∧
      (triggerSync (c4State a) (c4Env b)).1.syncQueue = [] ∧
      (triggerSync (c4State a) (c4Env b)).2.1 = true ∧
      (∀ e ∈ (triggerSync (c4State a) (c4Env b)).2.2, e.isTimer = false)) ∧
    (a + 1 < b + 1 →
      (triggerSync (c4State a) (c4Env b)).1.notes
        = [{ id := 5, serverId := some "S", title := "st", content := "sc",
             lastModified := some (b + 1), synced := true, userId := none }] ∧
      (triggerSync (c4State a) (c4Env b)).1.syncQueue = [] ∧
      (triggerSync (c4State a) (c4Env b)).2.1 = true ∧
      (∀ e ∈ (triggerSync (c4State a) (c4Env b)).2.2, e.isTimer = false)) := by
  constructor
  · intro hcmp
    have hp : (c4Env b).postSync [some (c4Note a)]
        = .ok ⟨[], [{ c4Server b with title := "ct", content := "cc", lastModified := some (a + 1) }], []⟩ := by
      show (serverSync c4SEnv ⟨[c4Server b], 0⟩ 0 [some (c4Note a)]).map (fun r => r.2) = _
      rw [serverSync_c4_reduce, if_pos hcmp]
      rfl
    have hpp := pushPhase_ok_resp { c4State a with syncInProgress := true } (c4Env b)
      (orderByTimestamp (c4State a).syncQueue) (processQueue (orderByTimestamp (c4State a).syncQueue))
      (some (c4Note a)) []
      ⟨[], [{ c4Server b with title := "ct", content := "cc", lastModified := some (a + 1) }], []⟩
      rfl hp rfl rfl
    have h1 : (triggerSync (c4State a) (c4Env b)).1 =
        (pushPhase { c4State a with syncInProgress := true } (c4Env b)
          (orderByTimestamp (c4State a).syncQueue)
          (processQueue (orderByTimestamp (c4State a).syncQueue))).1 := by
      rw [triggerSync_open _ _ rfl rfl, if_neg (fun h => Bool.noConfusion h)]
    have h2 : (triggerSync (c4State a) (c4Env b)).2.1 =
        (pushPhase { c4State a with syncInProgress := true } (c4Env b)
          (orderByTimestamp (c4State a).syncQueue)
          (processQueue (orderByTimestamp (c4State a).syncQueue))).2.1 := by
      rw [triggerSync_open _ _ rfl rfl, if_neg (fun h => Bool.noConfusion h)]
    have hres : (triggerSync (c4State a) (c4Env b)).2.1 = true := by
      rw [h2, hpp.2]
    refine ⟨?_, ?_, hres, ?_⟩
    · rw [h1, hpp.1]
      rfl
    · rw [h1, hpp.1]
      rfl
    · rcases triggerSync_shape (c4State a) (c4Env b) rfl rfl with ⟨_, _, _, htmr⟩ | ⟨hfalse, _⟩
      · exact htmr
      · rw [hres] at hfalse
        cases hfalse
  · intro hcmp
    have hp : (c4Env b).postSync [some (c4Note a)]
        = .ok ⟨[], [], [⟨some "S", some (c4Server b)⟩]⟩ := by
      show (serverSync c4SEnv ⟨[c4Server b], 0⟩ 0 [some (c4Note a)]).map (fun r => r.2) = _
      rw [serverSync_c4_reduce, if_neg (by omega)]
      rfl
    have hpp := pushPhase_ok_resp { c4State a with syncInProgress := true } (c4Env b)
      (orderByTimestamp (c4State a).syncQueue) (processQueue (orderByTimestamp (c4State a).syncQueue))
      (some (c4Note a)) []
      ⟨[], [], [⟨some "S", some (c4Server b)⟩]⟩
      rfl hp rfl rfl
    have h1 : (triggerSync (c4State a) (c4Env b)).1 =
        (pushPhase { c4State a with syncInProgress := true } (c4Env b)
          (orderByTimestamp (c4State a).syncQueue)
          (processQueue (orderByTimestamp (c4State a).syncQueue))).1 := by
      rw [triggerSync_open _ _ rfl rfl, if_neg (fun h => Bool.noConfusion h)]
    have h2 : (triggerSync (c4State a) (c4Env b)).2.1 =
        (pushPhase { c4State a with syncInProgress := true } (c4Env b)
          (orderByTimestamp (c4State a).syncQueue)
          (processQueue (orderByTimestamp (c4State a).syncQueue))).2.1 := by
      rw [triggerSync_open _ _ rfl rfl, if_neg (fun h => Bool.noConfusion h)]
    have hres : (triggerSync (c4State a) (c4Env b)).2.1 = true := by
      rw [h2, hpp.2]
    refine ⟨?_, ?_, hres, ?_⟩
    · rw [h1, hpp.1]
      rfl
    · rw [h1, hpp.1]
      rfl
    · rcases triggerSync_shape (c4State a) (c4Env b) rfl rfl with ⟨_, _, _, htmr⟩ | ⟨hfalse, _⟩
      · exact htmr
      · rw [hres] at hfalse
        cases hfalse

/-- C4 witness: both branches at concrete timestamps — client wins at
T1 = 6 ≥ T2 = 4, server wins at T1 = 2 < T2 = 8. -/
theorem c4_conflict_lww_witness :
    ((3 : Nat) + 1 ≤ 5 + 1 ∧
      ((triggerSync (c4State 5) (c4Env 3)).1.notes
        = [{ id := 5, serverId := some "S", title := "ct", content := "cc",
             lastModified := some 6, synced := true, userId := none }] ∧
      (triggerSync (c4State 5) (c4Env 3)).1.syncQueue = [] ∧
      (triggerSync (c4State 5) (c4Env 3)).2.1 = true ∧
      (∀ e ∈ (triggerSync (c4State 5) (c4Env 3)).2.2, e.isTimer = false))) ∧
    ((1 : Nat) + 1 < 7 + 1 ∧
      ((triggerSync (c4State 1) (c4Env 7)).1.notes
        = [{ id := 5, serverId := some "S", title := "st", content := "sc",
             lastModified := some 8, synced := true, userId := none }] ∧
      (triggerSync (c4State 1) (c4Env 7)).1.syncQueue = [] ∧
      (triggerSync (c4State 1) (c4Env 7)).2.1 = true ∧
      (∀ e ∈ (triggerSync (c4State 1) (c4Env 7)).2.2, e.isTimer = false))) :=
  ⟨⟨by decide, (c4_conflict_lww 5 3).1 (by decide)⟩,
   ⟨by decide, (c4_conflict_lww 1 7).2 (by decide)⟩⟩
